/-
  Verification of the grid pathfinding program (src/main.rs):
  an A* search over a 20×20 boolean wall grid, together with the
  interaction state machine that mutates walls/start/end and decides
  when to re-run the search.

  The Rust code is shallowly embedded: i64 coordinates become ℤ, u64
  scores become ℕ (no overflow is reachable at these magnitudes), the
  fixed 2D arrays become finitely-updated functions `Pos → _`, and the
  `BinaryHeap` becomes a list whose pop removes a maximal element with
  respect to the translated `Ord` instance (all stored entries are
  pairwise distinct, so this is the heap's exact observable behaviour).
  The unbounded `while` loops are given explicit fuel; fuel adequacy is
  proved (`ROWS*COLS` iterations always suffice).
-/
import Mathlib

namespace Pathfind

/-- `struct Pos(i64, i64)`: a grid coordinate, row `r` = field `.0`,
column `c` = field `.1`. -/
structure Pos where
  r : ℤ
  c : ℤ
deriving DecidableEq, Repr

/-- `impl Add for Pos`: componentwise addition. -/
instance : Add Pos := ⟨fun a b => ⟨a.r + b.r, a.c + b.c⟩⟩

/-- `Pos::distance`: Manhattan distance `abs_diff(.0) + abs_diff(.1)`
(`i64::abs_diff` returns the exact absolute difference as `u64`). -/
def Pos.distance (a b : Pos) : ℕ :=
  (a.r - b.r).natAbs + (a.c - b.c).natAbs

/-- `const ROWS: u64 = 20`. -/
def ROWS : ℕ := 20

/-- `const COLS: u64 = 20`. -/
def COLS : ℕ := 20

/-- `struct CellData { pos, fscore }`: a frontier entry. -/
structure CellData where
  pos : Pos
  fscore : ℕ
deriving DecidableEq, Repr

/-- `impl Ord for CellData`: reversed comparison on fscore, ties broken
by reversed row then reversed column, so that `BinaryHeap` (a max-heap)
pops the entry with minimal (fscore, row, col). -/
def CellData.cmp (a b : CellData) : Ordering :=
  (compare b.fscore a.fscore).then
    ((compare b.pos.r a.pos.r).then (compare b.pos.c a.pos.c))

/-- `BinaryHeap::pop`: remove and return a maximal element w.r.t.
`CellData.cmp` (entries stored by the search are pairwise distinct, so
the maximal element is unique and this models the heap exactly). -/
def popMax : List CellData → Option (CellData × List CellData)
  | [] => none
  | x :: xs =>
    match popMax xs with
    | none => some (x, [])
    | some (y, ys) => if CellData.cmp x y = .lt then some (y, x :: ys) else some (x, xs)

/-- Pointwise update of a finitely-modified table (models writing one
slot of the Rust 2D arrays / the wall array). -/
def upd {α : Type} (f : Pos → α) (p : Pos) (v : α) : Pos → α :=
  fun x => if x = p then v else f x

/-- `Context::is_passable`: in bounds and not a wall. -/
def is_passable (w : Pos → Bool) (p : Pos) : Bool :=
  decide (0 ≤ p.r) && decide (p.r < (ROWS : ℤ)) &&
  decide (0 ≤ p.c) && decide (p.c < (COLS : ℤ)) && !(w p)

/-- The neighbour offsets `[(-1,0),(1,0),(0,1),(0,-1)]`, in source order. -/
def dirs : List Pos := [⟨-1, 0⟩, ⟨1, 0⟩, ⟨0, 1⟩, ⟨0, -1⟩]

/-- The working state of one `calculate` invocation: the frontier `q`,
the three per-cell tables, the effort counter `numcalc`
(`stat_numcalc`), the result `path`, and the `break` flag `finished`.
`pops` and `pushes` are instrumentation only (not in the source): they
record the sequence of cells popped from / pushed onto the frontier,
and are used to state the effort and termination claims. -/
structure AState where
  q : List CellData
  gscore : Pos → Option ℕ
  parent : Pos → Option Pos
  visited : Pos → Bool
  numcalc : ℕ
  path : List Pos
  finished : Bool
  pops : List Pos
  pushes : List Pos

/-- Path reconstruction (`while p != start { path.push(p); p = parent[p].unwrap() }`),
with explicit fuel; the `parent p = none` case models the unreachable
`unwrap` panic by stopping. The produced list is in end-to-start order,
as in the source before the final `reverse`. -/
def backtrack (parent : Pos → Option Pos) (s : Pos) : ℕ → Pos → List Pos
  | 0, _ => []
  | fuel + 1, p =>
    if p = s then []
    else
      p :: (match parent p with
            | some pp => backtrack parent s fuel pp
            | none => [])

/-- One neighbour step of the expansion loop
`for direction in [(-1,0),(1,0),(0,1),(0,-1)]`: assign a parent on
first reach, then record the g-score and push exactly when the g-score
was unknown or improved (`gscore[curr].unwrap()` is modelled with a
default that is proved unreachable). -/
def expandDir (w : Pos → Bool) (e : Pos) (curr : Pos) (st : AState) (d : Pos) : AState :=
  let next := curr + d
  if is_passable w next && (st.parent next).isNone then
    let st1 : AState := { st with parent := upd st.parent next (some curr) }
    let tg : ℕ := (st1.gscore curr).getD 0 + 1
    match st1.gscore next with
    | none =>
      { st1 with
        gscore := upd st1.gscore next (some tg)
        q := ⟨next, tg + Pos.distance next e⟩ :: st1.q
        visited := upd st1.visited next false
        pushes := st1.pushes ++ [next] }
    | some g =>
      if tg < g then
        { st1 with
          gscore := upd st1.gscore next (some tg)
          q := ⟨next, tg + Pos.distance next e⟩ :: st1.q
          visited := upd st1.visited next false
          pushes := st1.pushes ++ [next] }
      else st1
  else st

/-- One iteration of the `while !q.is_empty()` loop body: pop, skip if
visited, count, finish when the popped cell is `end` (reconstructing
the path), otherwise expand the four neighbours. -/
def stepA (w : Pos → Bool) (s e : Pos) (st : AState) : AState :=
  match popMax st.q with
  | none => st
  | some (cd, rest) =>
    let curr := cd.pos
    let st1 : AState := { st with q := rest, pops := st.pops ++ [curr] }
    if st1.visited curr then st1
    else
      let st2 : AState := { st1 with numcalc := st1.numcalc + 1 }
      if curr = e then
        { st2 with
          path := (backtrack st2.parent s (ROWS * COLS) e).reverse
          finished := true }
      else
        dirs.foldl (expandDir w e curr) st2

/-- The loop guard: not broken out of, and the frontier is nonempty. -/
def activeA (st : AState) : Bool := !st.finished && !st.q.isEmpty

/-- The `while` loop with explicit fuel (fuel `ROWS*COLS` is proved
sufficient: each iteration pops a distinct in-bounds cell). -/
def loopA (w : Pos → Bool) (s e : Pos) : ℕ → AState → AState
  | 0, st => st
  | fuel + 1, st => if activeA st then loopA w s e fuel (stepA w s e st) else st

/-- The search state just before the loop: the frontier seeded with
`(start, start.distance(end))`, `gscore[start] = 0`, all parents unset,
all `visited` false. -/
def initA (s e : Pos) : AState :=
  { q := [⟨s, Pos.distance s e⟩]
    gscore := fun p => if p = s then some 0 else none
    parent := fun _ => none
    visited := fun _ => false
    numcalc := 0
    path := []
    finished := false
    pops := []
    pushes := [s] }

/-- The final search state of one `calculate` run in the case where
start and end are present and passable. -/
def calcState (w : Pos → Bool) (s e : Pos) : AState :=
  loopA w s e (ROWS * COLS) (initA s e)

/-- `Context::calculate`, as a function of the wall table and the two
optional endpoints, returning the new `(path, stat_numcalc)`. The
source zeroes `stat_numcalc`, clears `path`, seeds the frontier, and
returns early (empty path, zero effort) when either endpoint is absent
or fails `is_passable`; otherwise it runs the A* loop. -/
def calculate (w : Pos → Bool) (os oe : Option Pos) : List Pos × ℕ :=
  match os, oe with
  | some s, some e =>
    if is_passable w s && is_passable w e then
      let fin := calcState w s e
      (fin.path, fin.numcalc)
    else ([], 0)
  | _, _ => ([], 0)

/-- `enum ControlState`. -/
inductive ControlState where
  | Grid : ControlState
  | Panning : ControlState
  | Drawing : Bool → ControlState
deriving DecidableEq, Repr

/-- The model-relevant fields of `struct Context` (camera and zoom are
presentation state, outside the model). `endp` is the source's `end`
field (`end` is reserved in Lean). -/
structure Context where
  mouse_grid : Option Pos
  control_state : ControlState
  is_wall : Pos → Bool
  start : Option Pos
  endp : Option Pos
  path : List Pos
  stat_numcalc : ℕ

/-- `Context::set_control_state`: assign only when different. -/
def setControlState (ctx : Context) (cs : ControlState) : Context :=
  if ctx.control_state ≠ cs then { ctx with control_state := cs } else ctx

/-- Running `self.calculate()` on a context: recompute `path` and
`stat_numcalc` from the current walls/start/end. -/
def runCalculate (ctx : Context) : Context :=
  let r := calculate ctx.is_wall ctx.start ctx.endp
  { ctx with path := r.1, stat_numcalc := r.2 }

/-- The per-tick derived input events consumed by the state machine:
the pointer-to-cell mapping and the button/key states read on that
frame. -/
structure Input where
  mouse_grid : Option Pos
  middle_pressed : Bool
  middle_released : Bool
  left_pressed : Bool
  left_released : Bool
  s_down : Bool
  e_down : Bool

/-- One tick of the interaction state machine (the `match
context.control_state` block of `main`), restricted to its effects on
the model fields; also returns the number of `calculate` invocations
and the number of control-state transitions performed on this tick. -/
def tickFull (ctx : Context) (inp : Input) : Context × ℕ × ℕ :=
  let c0 : Context := { ctx with mouse_grid := inp.mouse_grid }
  match c0.control_state with
  | ControlState.Grid =>
    if inp.middle_pressed then
      (setControlState c0 ControlState.Panning, 0, 1)
    else
      match c0.mouse_grid, inp.left_pressed with
      | some p, true =>
        (setControlState c0 (ControlState.Drawing (!c0.is_wall p)), 0, 1)
      | _, _ =>
        let r1 : Context × ℕ :=
          if inp.s_down && decide (c0.mouse_grid ≠ c0.start) then
            (runCalculate { c0 with start := c0.mouse_grid }, 1)
          else (c0, 0)
        let r2 : Context × ℕ :=
          if inp.e_down && decide (r1.1.mouse_grid ≠ r1.1.endp) then
            (runCalculate { r1.1 with endp := r1.1.mouse_grid }, 1)
          else (r1.1, 0)
        (r2.1, r1.2 + r2.2, 0)
  | ControlState.Panning =>
    if inp.middle_released then (setControlState c0 ControlState.Grid, 0, 1)
    else (c0, 0, 0)
  | ControlState.Drawing v =>
    if inp.left_released then (setControlState c0 ControlState.Grid, 0, 1)
    else
      match c0.mouse_grid with
      | some p =>
        if c0.is_wall p ≠ v then
          (runCalculate { c0 with is_wall := upd c0.is_wall p v }, 1, 0)
        else (c0, 0, 0)
      | none => (c0, 0, 0)

/-- The new context after one tick. -/
def tick (ctx : Context) (inp : Input) : Context := (tickFull ctx inp).1

/-- The pointer-to-cell mapping (`main`, the `context.mouse_grid`
assignment): present with the floored world coordinates exactly when
the pointer's world position lies inside `[0,COLS)×[0,ROWS)` (world
coordinates idealised as rationals; the `as i64` cast of a nonnegative
value is a floor). -/
def mouseGridOfWorld (x y : ℚ) : Option Pos :=
  if 0 ≤ x ∧ x < (COLS : ℚ) ∧ 0 ≤ y ∧ y < (ROWS : ℚ) then
    some ⟨⌊y⌋, ⌊x⌋⟩
  else none

/-- A cell is in bounds when it lies in `[0,ROWS)×[0,COLS)`. -/
def inBoundsB (p : Pos) : Bool :=
  decide (0 ≤ p.r) && decide (p.r < (ROWS : ℤ)) &&
  decide (0 ≤ p.c) && decide (p.c < (COLS : ℤ))

/-- Two cells are 4-connected neighbours exactly when their Manhattan
distance is 1. -/
def adjacent (a b : Pos) : Bool := Pos.distance a b = 1

/-- Consecutive elements of the list are 4-connected neighbours. -/
def chainB : List Pos → Bool
  | [] => true
  | [_] => true
  | a :: b :: rest => adjacent a b && chainB (b :: rest)

/-- `isRoute w s e l`: `l` is a genuine 4-connected route through
passable cells from `s` (exclusive) to `e` (inclusive): prepending `s`,
consecutive cells are neighbours, every cell is passable, and the last
cell is `e`. -/
def isRoute (w : Pos → Bool) (s e : Pos) (l : List Pos) : Bool :=
  chainB (s :: l) && (s :: l).all (is_passable w) &&
    decide ((s :: l).getLast? = some e)

/-- The 400 in-bounds cells, as a finite set. -/
def gridFinset : Finset Pos :=
  (Finset.range ROWS ×ˢ Finset.range COLS).image (fun rc => ⟨rc.1, rc.2⟩)

/-- The bounds invariant of the grid model: every cell stored in
`start`, `end` or `path` is in bounds. -/
def ctxInvB (c : Context) : Bool :=
  c.start.all inBoundsB && c.endp.all inBoundsB && c.path.all inBoundsB

/-- The core loop invariant of one search invocation (`w` walls, `s`
start, `e` end): all fields except the expansion-completeness of popped
cells, which is only restored at the end of each neighbour fold. -/
structure Inv0 (w : Pos → Bool) (s e : Pos) (st : AState) : Prop where
  q_pass : ∀ cd ∈ st.q, is_passable w cd.pos = true
  q_g : ∀ cd ∈ st.q, (st.gscore cd.pos).isSome = true
  q_parent : ∀ cd ∈ st.q, cd.pos ≠ s → (st.parent cd.pos).isSome = true
  q_nodup : (st.q.map CellData.pos).Nodup
  g_start : st.gscore s = some 0
  parent_pass : ∀ p u, st.parent p = some u → is_passable w p = true
  parent_src : ∀ p u, st.parent p = some u → is_passable w u = true
  parent_adj : ∀ p u, st.parent p = some u → ∃ d ∈ dirs, p = u + d
  parent_g : ∀ p u, st.parent p = some u → p ≠ s →
    ∃ gu, st.gscore u = some gu ∧ st.gscore p = some (gu + 1)
  g_parent : ∀ p, (st.gscore p).isSome = true → p ≠ s → (st.parent p).isSome = true
  vis : ∀ p, st.visited p = false
  reach_loc : ∀ p, (st.gscore p).isSome = true → p ∈ st.pops ∨ ∃ cd ∈ st.q, cd.pos = p
  end_pops : st.finished = false → e ∉ st.pops
  pops_nodup : st.pops.Nodup
  pops_q : ∀ p ∈ st.pops, ∀ cd ∈ st.q, cd.pos ≠ p
  pops_parent : ∀ p ∈ st.pops, p = s ∨ (st.parent p).isSome = true
  pops_pass : ∀ p ∈ st.pops, is_passable w p = true
  pushes_nodup : st.pushes.Nodup
  pushes_parent : ∀ p ∈ st.pushes, p = s ∨ (st.parent p).isSome = true
  pushes_pass : ∀ p ∈ st.pushes, is_passable w p = true
  q_pushes : ∀ cd ∈ st.q, cd.pos ∈ st.pushes
  pops_pushes : ∀ p ∈ st.pops, p ∈ st.pushes
  ncalc : st.numcalc = st.pops.length
  fin_path : st.finished = true →
    st.path = (backtrack st.parent s (ROWS * COLS) e).reverse ∧ (st.gscore e).isSome = true
  unfin_path : st.finished = false → st.path = []

/-- The full loop invariant: the core invariant plus the fact that
every passable neighbour of an already-popped cell has been reached
(has a g-score) — while the search has not finished. -/
structure Inv (w : Pos → Bool) (s e : Pos) (st : AState)
    extends Inv0 w s e st : Prop where
  pops_exp : st.finished = false → ∀ p ∈ st.pops, ∀ d ∈ dirs,
    is_passable w (p + d) = true → (st.gscore (p + d)).isSome = true

/-! ### Concrete instances used by counterexamples and witnesses -/

/-- The all-clear wall table. -/
def noWalls : Pos → Bool := fun _ => false

/-- A wall table on the 20×20 grid: one wall at (0,1) plus an L-shaped
fence (row 4 up to column 5, column 5 up to row 4) enclosing the region
rows 0–3, columns 0–4. -/
def wallsC1 : Pos → Bool := fun p =>
  ([((0 : ℤ), (1 : ℤ)), (0, 5), (1, 5), (2, 5), (3, 5),
    (4, 0), (4, 1), (4, 2), (4, 3), (4, 4), (4, 5)]).contains (p.r, p.c)

/-- A 5-step route from (1,4) to (0,0) avoiding `wallsC1`. -/
def routeC1 : List Pos := [⟨1, 3⟩, ⟨1, 2⟩, ⟨1, 1⟩, ⟨1, 0⟩, ⟨0, 0⟩]

/-- A context in the `Grid` state with a start cell set. -/
def ctxC3 : Context :=
  ⟨none, ControlState.Grid, noWalls, some ⟨0, 0⟩, none, [], 0⟩

/-- A tick input with the pointer outside the grid and the mark-start
key held. -/
def inpC3 : Input := ⟨none, false, false, false, false, true, false⟩

/-- A context in the `Grid` state with distinct start and end cells. -/
def ctxC4 : Context :=
  ⟨none, ControlState.Grid, noWalls, some ⟨0, 1⟩, some ⟨1, 0⟩, [], 0⟩

/-- A tick input with the pointer over (0,0) and both the mark-start
and the mark-end keys held. -/
def inpC4 : Input := ⟨some ⟨0, 0⟩, false, false, false, false, true, true⟩

/-! ### Basic facts about the frontier order and `popMax` -/

lemma cmp_eq_lt_iff (a b : CellData) :
    CellData.cmp a b = Ordering.lt ↔
      (b.fscore < a.fscore ∨
        (b.fscore = a.fscore ∧
          (b.pos.r < a.pos.r ∨ (b.pos.r = a.pos.r ∧ b.pos.c < a.pos.c)))) := by
  unfold CellData.cmp
  rcases lt_trichotomy b.fscore a.fscore with h | h | h
  · simp [compare_lt_iff_lt.2 h, Ordering.then, h, h.ne, asymm h]
  · rcases lt_trichotomy b.pos.r a.pos.r with h2 | h2 | h2
    · simp [h, compare_eq_iff_eq.2 rfl, Ordering.then, compare_lt_iff_lt.2 h2, h2]
    · rcases lt_trichotomy b.pos.c a.pos.c with h3 | h3 | h3
      · simp [h, h2, compare_eq_iff_eq.2 rfl, Ordering.then, compare_lt_iff_lt.2 h3, h3]
      · simp [h, h2, h3, compare_eq_iff_eq.2 rfl, Ordering.then]
      · simp [h, h2, compare_eq_iff_eq.2 rfl, Ordering.then,
          compare_gt_iff_gt.2 h3, h3.ne', asymm h3]
    · simp [h, compare_eq_iff_eq.2 rfl, Ordering.then, compare_gt_iff_gt.2 h2,
        h2.ne', asymm h2]
  · simp [compare_gt_iff_gt.2 h, Ordering.then, h.ne', asymm h]

lemma popMax_eq_none {l : List CellData} : popMax l = none ↔ l = [] := by
  cases l with
  | nil => simp [popMax]
  | cons x xs =>
    simp only [popMax]
    rcases h : popMax xs with _ | ⟨y, ys⟩ <;> simp [h]
    split <;> simp

lemma popMax_perm {l : List CellData} {x : CellData} {rest : List CellData}
    (h : popMax l = some (x, rest)) : l.Perm (x :: rest) := by
  induction l generalizing x rest with
  | nil => simp [popMax] at h
  | cons z zs ih =>
    simp only [popMax] at h
    rcases hz : popMax zs with _ | ⟨⟨y, ys⟩⟩
    · simp only [hz] at h
      obtain rfl : zs = [] := popMax_eq_none.1 hz
      simp only [Option.some.injEq, Prod.mk.injEq] at h
      obtain ⟨rfl, rfl⟩ := h
      exact List.Perm.refl _
    · simp only [hz] at h
      have hperm := ih hz
      by_cases hc : CellData.cmp z y = Ordering.lt
      · rw [if_pos hc] at h
        simp only [Option.some.injEq, Prod.mk.injEq] at h
        obtain ⟨rfl, rfl⟩ := h
        exact (hperm.cons z).trans (List.Perm.swap _ _ _)
      · rw [if_neg hc] at h
        simp only [Option.some.injEq, Prod.mk.injEq] at h
        obtain ⟨rfl, rfl⟩ := h
        exact List.Perm.refl _

/-- The order in which the heap serves entries: `a` is popped no later
than `b` when its (fscore, row, col) key is lexicographically no
larger. -/
def keyLe (a b : CellData) : Prop :=
  a.fscore < b.fscore ∨
    (a.fscore = b.fscore ∧
      (a.pos.r < b.pos.r ∨ (a.pos.r = b.pos.r ∧ a.pos.c ≤ b.pos.c)))

lemma cmp_ne_lt_iff (a b : CellData) :
    CellData.cmp a b ≠ Ordering.lt ↔ keyLe a b := by
  rw [Ne, cmp_eq_lt_iff, keyLe]
  omega

lemma keyLe_trans {a b c : CellData} (h1 : keyLe a b) (h2 : keyLe b c) :
    keyLe a c := by
  unfold keyLe at h1 h2 ⊢
  omega

lemma keyLe_total (a b : CellData) : keyLe a b ∨ keyLe b a := by
  unfold keyLe
  omega

lemma popMax_min {l : List CellData} {x : CellData} {rest : List CellData}
    (h : popMax l = some (x, rest)) :
    ∀ y ∈ l, keyLe x y := by
  induction l generalizing x rest with
  | nil => simp [popMax] at h
  | cons z zs ih =>
    simp only [popMax] at h
    rcases hz : popMax zs with _ | ⟨⟨y0, ys⟩⟩
    · simp only [hz] at h
      obtain rfl : zs = [] := popMax_eq_none.1 hz
      simp only [Option.some.injEq, Prod.mk.injEq] at h
      obtain ⟨rfl, rfl⟩ := h
      intro y hy
      rcases List.mem_singleton.1 hy with rfl
      unfold keyLe; omega
    · simp only [hz] at h
      have hmin := ih hz
      by_cases hc : CellData.cmp z y0 = Ordering.lt
      · rw [if_pos hc] at h
        simp only [Option.some.injEq, Prod.mk.injEq] at h
        obtain ⟨rfl, rfl⟩ := h
        intro y hy
        rcases List.mem_cons.1 hy with rfl | hy
        · rw [cmp_eq_lt_iff] at hc
          unfold keyLe; omega
        · exact hmin y hy
      · rw [if_neg hc] at h
        simp only [Option.some.injEq, Prod.mk.injEq] at h
        obtain ⟨rfl, rfl⟩ := h
        intro y hy
        rcases List.mem_cons.1 hy with rfl | hy
        · unfold keyLe; omega
        · exact keyLe_trans ((cmp_ne_lt_iff _ y0).1 hc) (hmin y hy)

/-! ### Loop, backtrack and direction helpers -/

lemma Pos.add_def (a b : Pos) : a + b = ⟨a.r + b.r, a.c + b.c⟩ := rfl

lemma loopA_succ (w : Pos → Bool) (s e : Pos) (f : ℕ) (st : AState) :
    loopA w s e (f + 1) st =
      if activeA st then loopA w s e f (stepA w s e st) else st := rfl

lemma loopA_inactive {st : AState} (h : activeA st = false) (w : Pos → Bool)
    (s e : Pos) (f : ℕ) : loopA w s e f st = st := by
  cases f with
  | zero => rfl
  | succ f => rw [loopA_succ, if_neg (by simp [h])]

lemma backtrack_succ (pa : Pos → Option Pos) (s : Pos) (f : ℕ) (p : Pos) :
    backtrack pa s (f + 1) p =
      if p = s then []
      else p :: (match pa p with
                 | some pp => backtrack pa s f pp
                 | none => []) := rfl

lemma mem_dirs_iff (d : Pos) :
    d ∈ dirs ↔ d = ⟨-1, 0⟩ ∨ d = ⟨1, 0⟩ ∨ d = ⟨0, 1⟩ ∨ d = ⟨0, -1⟩ := by
  simp [dirs]

lemma Pos.ext_rc {a b : Pos} (h1 : a.r = b.r) (h2 : a.c = b.c) : a = b := by
  cases a; cases b; simp_all

lemma add_dir_ne {p d : Pos} (hd : d ∈ dirs) : p + d ≠ p := by
  rcases (mem_dirs_iff d).1 hd with rfl | rfl | rfl | rfl <;>
    (intro h; have := congrArg Pos.r h; have := congrArg Pos.c h;
     simp [Pos.add_def] at *)

lemma dir_adjacent {u d : Pos} (hd : d ∈ dirs) : adjacent u (u + d) = true := by
  rcases (mem_dirs_iff d).1 hd with rfl | rfl | rfl | rfl <;>
    simp [adjacent, Pos.distance, Pos.add_def]

lemma adjacent_dir {a b : Pos} (h : adjacent a b = true) : ∃ d ∈ dirs, b = a + d := by
  simp only [adjacent, decide_eq_true_eq] at h
  unfold Pos.distance at h
  have h4 : (b.r = a.r - 1 ∧ b.c = a.c) ∨ (b.r = a.r + 1 ∧ b.c = a.c) ∨
      (b.r = a.r ∧ b.c = a.c + 1) ∨ (b.r = a.r ∧ b.c = a.c - 1) := by omega
  rcases h4 with ⟨h1, h2⟩ | ⟨h1, h2⟩ | ⟨h1, h2⟩ | ⟨h1, h2⟩
  · exact ⟨⟨-1, 0⟩, by simp [dirs],
      Pos.ext_rc (by simp [Pos.add_def]; omega) (by simp [Pos.add_def]; omega)⟩
  · exact ⟨⟨1, 0⟩, by simp [dirs],
      Pos.ext_rc (by simp [Pos.add_def]; omega) (by simp [Pos.add_def]; omega)⟩
  · exact ⟨⟨0, 1⟩, by simp [dirs],
      Pos.ext_rc (by simp [Pos.add_def]; omega) (by simp [Pos.add_def]; omega)⟩
  · exact ⟨⟨0, -1⟩, by simp [dirs],
      Pos.ext_rc (by simp [Pos.add_def]; omega) (by simp [Pos.add_def]; omega)⟩

/-! ### The grid as a finite set -/

lemma mem_gridFinset {p : Pos} :
    p ∈ gridFinset ↔ 0 ≤ p.r ∧ p.r < 20 ∧ 0 ≤ p.c ∧ p.c < 20 := by
  constructor
  · intro h
    simp only [gridFinset, Finset.mem_image, Finset.mem_product,
      Finset.mem_range] at h
    obtain ⟨⟨a, b⟩, ⟨ha, hb⟩, hp⟩ := h
    subst hp
    simp only [ROWS, COLS] at ha hb
    dsimp only
    omega
  · intro ⟨h1, h2, h3, h4⟩
    simp only [gridFinset, Finset.mem_image, Finset.mem_product, Finset.mem_range]
    refine ⟨(p.r.toNat, p.c.toNat), ⟨?_, ?_⟩, ?_⟩
    · simp only [ROWS]; omega
    · simp only [COLS]; omega
    · exact Pos.ext_rc (by dsimp only; omega) (by dsimp only; omega)

lemma gridFinset_card : gridFinset.card = ROWS * COLS := by
  rw [gridFinset, Finset.card_image_of_injOn, Finset.card_product,
    Finset.card_range, Finset.card_range]
  rintro ⟨a1, a2⟩ - ⟨b1, b2⟩ - h
  simp only [Pos.mk.injEq, Nat.cast_inj] at h
  simp [h.1, h.2]

lemma is_passable_bounds {w : Pos → Bool} {p : Pos} (h : is_passable w p = true) :
    0 ≤ p.r ∧ p.r < 20 ∧ 0 ≤ p.c ∧ p.c < 20 := by
  simp only [is_passable, ROWS, COLS, Bool.and_eq_true, decide_eq_true_eq] at h
  have h1 := h.1.1.1.1
  have h2 := h.1.1.1.2
  have h3 := h.1.1.2
  have h4 := h.1.2
  push_cast at h2 h4
  exact ⟨h1, h2, h3, h4⟩

lemma is_passable_mem_grid {w : Pos → Bool} {p : Pos} (h : is_passable w p = true) :
    p ∈ gridFinset := mem_gridFinset.2 (is_passable_bounds h)

lemma nodup_grid_length_le {l : List Pos} (hn : l.Nodup)
    (hsub : ∀ x ∈ l, x ∈ gridFinset) : l.length ≤ ROWS * COLS := by
  have h1 : l.toFinset.card = l.length := List.toFinset_card_of_nodup hn
  have h2 : l.toFinset ⊆ gridFinset := by
    intro x hx
    exact hsub x (List.mem_toFinset.1 hx)
  calc l.length = l.toFinset.card := h1.symm
    _ ≤ gridFinset.card := Finset.card_le_card h2
    _ = ROWS * COLS := gridFinset_card

/-! ### Claims C5, C6, C2, C3, C4 (heap order, degenerate searches, tick effects) -/

/-- C5: whenever the frontier pop returns an entry, that entry was
present, is removed (the remainder is a permutation of the rest), has
minimal f-score among the entries present, and among entries of equal
f-score has the smallest row, then the smallest column. -/
theorem c5_pop_minimal (l : List CellData) (x : CellData) (rest : List CellData)
    (h : popMax l = some (x, rest)) :
    l.Perm (x :: rest) ∧
    (∀ y ∈ l, x.fscore ≤ y.fscore) ∧
    (∀ y ∈ l, y.fscore = x.fscore → x.pos.r ≤ y.pos.r) ∧
    (∀ y ∈ l, y.fscore = x.fscore → y.pos.r = x.pos.r → x.pos.c ≤ y.pos.c) := by
  have hm := popMax_min h
  refine ⟨popMax_perm h, ?_, ?_, ?_⟩
  · intro y hy
    have := hm y hy
    unfold keyLe at this
    omega
  · intro y hy h1
    have := hm y hy
    unfold keyLe at this
    omega
  · intro y hy h1 h2
    have := hm y hy
    unfold keyLe at this
    omega

/-- C5 witness: on a two-entry frontier with equal f-scores, the entry
with the smaller row is popped first. -/
theorem c5_witness :
    (⟨⟨0, 3⟩, 5⟩ : CellData).fscore ≤ (⟨⟨1, 1⟩, 5⟩ : CellData).fscore ∧
    (⟨⟨0, 3⟩, 5⟩ : CellData).pos.r ≤ (⟨⟨1, 1⟩, 5⟩ : CellData).pos.r := by
  have h := c5_pop_minimal [⟨⟨1, 1⟩, 5⟩, ⟨⟨0, 3⟩, 5⟩] ⟨⟨0, 3⟩, 5⟩ [⟨⟨1, 1⟩, 5⟩]
    (by decide)
  exact ⟨h.2.1 _ (by decide), h.2.2.1 _ (by decide) (by decide)⟩

/-- C6: if start and end are both present but either fails the
passability oracle, `calculate` returns an empty path and zero effort
(the loop never runs, so no node is expanded). -/
theorem c6_impassable_endpoints (w : Pos → Bool) (s e : Pos)
    (h : is_passable w s = false ∨ is_passable w e = false) :
    calculate w (some s) (some e) = ([], 0) := by
  rcases h with h | h <;> simp [calculate, h]

/-- C6 witness: a walled start cell yields the empty result. -/
theorem c6_witness :
    is_passable (upd noWalls ⟨0, 0⟩ true) ⟨0, 0⟩ = false ∧
    calculate (upd noWalls ⟨0, 0⟩ true) (some ⟨0, 0⟩) (some ⟨1, 1⟩) = ([], 0) :=
  ⟨by decide, c6_impassable_endpoints _ _ _ (Or.inl (by decide))⟩

/-- C2 counterexample: with no walls and start = end = (0,0), the
search returns an empty path but `search_effort` 1, not 0 (the start
cell is popped and counted before the loop breaks), refuting the
claimed return of (empty, 0). -/
theorem c2_counterexample :
    calculate noWalls (some ⟨0, 0⟩) (some ⟨0, 0⟩) ≠ ([], 0) ∧
    calculate noWalls (some ⟨0, 0⟩) (some ⟨0, 0⟩) = ([], 1) := by
  constructor <;> decide

/-- C2 amended: when start and end are present and equal, `calculate`
returns an empty path, with effort 1 when the shared cell is passable
(the single pop of the start cell is counted before the loop breaks)
and 0 when it is not (the passability precheck returns early). -/
theorem c2_amended_effort (w : Pos → Bool) (p : Pos) :
    calculate w (some p) (some p) =
      ([], if is_passable w p = true then 1 else 0) := by
  by_cases hp : is_passable w p = true
  · rw [if_pos hp]
    have h400 : ROWS * COLS = 399 + 1 := by norm_num [ROWS, COLS]
    have hstep : stepA w p p (initA p p) =
        { q := []
          gscore := (initA p p).gscore
          parent := (initA p p).parent
          visited := (initA p p).visited
          numcalc := 1
          path := []
          finished := true
          pops := [p]
          pushes := [p] } := by
      show stepA w p p (initA p p) = _
      rw [stepA]
      simp only [initA, popMax]
      rw [if_neg (by simp)]
      simp only [if_true]
      rw [h400, backtrack_succ, if_pos rfl]
      rfl
    simp only [calculate, hp, Bool.and_self, if_pos]
    rw [calcState, h400, loopA_succ,
      if_pos (by simp [activeA, initA]), hstep,
      loopA_inactive (by simp [activeA])]
  · rw [if_neg hp]
    simp only [Bool.not_eq_true] at hp
    simp [calculate, hp]

/-- C3 counterexample: in the `Grid` state with the pointer outside the
grid (mapping absent) and the mark-start key held, the tick clears
`start` from (0,0) to absent — a mutation of the grid model, refuting
the claim that no mutation is attempted on such ticks. -/
theorem c3_counterexample :
    ctxC3.start = some ⟨0, 0⟩ ∧ inpC3.mouse_grid = none ∧
    (tick ctxC3 inpC3).start = none ∧
    (tick ctxC3 inpC3).start ≠ ctxC3.start := by
  refine ⟨rfl, rfl, by decide, by decide⟩

/-- C3 amended: on a tick whose pointer-to-cell mapping is absent, the
walls are never mutated (in any state), and `start`/`end` are unchanged
except in the `Grid` state (with the middle button not pressed) when
the mark-start (resp. mark-end) key is held and the respective endpoint
is present: then it is cleared to absent (and the search is re-run). -/
theorem c3_amended_pointer_absent (ctx : Context) (inp : Input)
    (h : inp.mouse_grid = none) :
    (tick ctx inp).is_wall = ctx.is_wall ∧
    (tick ctx inp).start = (if ctx.control_state = ControlState.Grid ∧
        inp.middle_pressed = false ∧ inp.s_down = true then none else ctx.start) ∧
    (tick ctx inp).endp = (if ctx.control_state = ControlState.Grid ∧
        inp.middle_pressed = false ∧ inp.e_down = true then none else ctx.endp) := by
  rcases hcs : ctx.control_state with _ | _ | v
  · cases hm : inp.middle_pressed
    · cases hsd : inp.s_down <;> cases hed : inp.e_down <;>
        cases hst : ctx.start <;> cases hen : ctx.endp <;>
          simp [tick, tickFull, hcs, hm, hsd, hed, hst, hen, h,
            runCalculate, setControlState, calculate]
    · simp [tick, tickFull, hcs, hm, setControlState]
  · cases hmr : inp.middle_released <;>
      simp [tick, tickFull, hcs, hmr, setControlState]
  · cases hlr : inp.left_released <;>
      simp [tick, tickFull, hcs, hlr, h, setControlState]

/-- C3 amended witness: the amended statement at the concrete
context/input of the counterexample. -/
theorem c3_amended_witness :
    (tick ctxC3 inpC3).is_wall = ctxC3.is_wall ∧
    (tick ctxC3 inpC3).start = (if ctxC3.control_state = ControlState.Grid ∧
        inpC3.middle_pressed = false ∧ inpC3.s_down = true then none
      else ctxC3.start) ∧
    (tick ctxC3 inpC3).endp = (if ctxC3.control_state = ControlState.Grid ∧
        inpC3.middle_pressed = false ∧ inpC3.e_down = true then none
      else ctxC3.endp) :=
  c3_amended_pointer_absent ctxC3 inpC3 rfl

/-- C4 counterexample: in the `Grid` state with the mark-start and
mark-end keys both held over a cell that differs from both the current
start and the current end, a single tick invokes the search engine
twice, refuting the claimed at-most-one invocation per tick. -/
theorem c4_counterexample : (tickFull ctxC4 inpC4).2.1 = 2 := by decide

/-- C4 amended: every tick performs at most one control-state
transition, and invokes the search engine at most twice (once from the
mark-start branch and once from the mark-end branch; every other branch
invokes it at most once). -/
theorem c4_amended_bounded (ctx : Context) (inp : Input) :
    (tickFull ctx inp).2.2 ≤ 1 ∧ (tickFull ctx inp).2.1 ≤ 2 := by
  rcases hcs : ctx.control_state with _ | _ | v
  · cases hm : inp.middle_pressed
    · rcases hmg : inp.mouse_grid with _ | p <;> cases hlp : inp.left_pressed <;>
        simp only [tickFull, hcs, hm, hmg, hlp] <;> split_ifs <;> simp
    · simp [tickFull, hcs, hm]
  · cases hmr : inp.middle_released <;> simp [tickFull, hcs, hmr]
  · cases hlr : inp.left_released <;>
      rcases hmg : inp.mouse_grid with _ | p <;>
        simp only [tickFull, hcs, hlr, hmg] <;> split_ifs <;> simp

/-! ### Table update helpers -/

lemma upd_same {α : Type} (f : Pos → α) (p : Pos) (v : α) : upd f p v p = v := by
  simp [upd]

lemma upd_ne {α : Type} (f : Pos → α) (p : Pos) (v : α) {x : Pos} (h : x ≠ p) :
    upd f p v x = f x := by
  simp [upd, h]

/-! ### Preservation of the invariant by one neighbour expansion -/

lemma expandDir_inv0 {w : Pos → Bool} {s e : Pos} {st : AState} {curr d : Pos}
    (hd : d ∈ dirs) (h0 : Inv0 w s e st) (hs : is_passable w s = true)
    (hcP : is_passable w curr = true) {gc : ℕ} (hgc : st.gscore curr = some gc)
    (hfin : st.finished = false) :
    Inv0 w s e (expandDir w e curr st d) ∧
    (∀ p v, st.gscore p = some v → (expandDir w e curr st d).gscore p = some v) ∧
    (expandDir w e curr st d).pops = st.pops ∧
    (expandDir w e curr st d).finished = st.finished ∧
    (expandDir w e curr st d).path = st.path ∧
    (expandDir w e curr st d).numcalc = st.numcalc ∧
    (is_passable w (curr + d) = true →
      ((expandDir w e curr st d).gscore (curr + d)).isSome = true) ∧
    (∀ p u, st.parent p = some u → (expandDir w e curr st d).parent p = some u) := by
  by_cases hg : (is_passable w (curr + d) && (st.parent (curr + d)).isNone) = true
  · have hpass : is_passable w (curr + d) = true := by
      simp only [Bool.and_eq_true] at hg; exact hg.1
    have hnone : st.parent (curr + d) = none := by
      simp only [Bool.and_eq_true, Option.isNone_iff_eq_none] at hg; exact hg.2
    have hnc : curr + d ≠ curr := add_dir_ne hd
    rcases hgn : st.gscore (curr + d) with _ | g
    · -- first reach of an unscored cell: parent assigned, pushed
      have hns : curr + d ≠ s := by
        intro hcontra
        rw [hcontra, h0.g_start] at hgn
        exact Option.noConfusion hgn
      have hR : expandDir w e curr st d =
          { st with
            parent := upd st.parent (curr + d) (some curr)
            gscore := upd st.gscore (curr + d) (some (gc + 1))
            q := ⟨curr + d, (gc + 1) + Pos.distance (curr + d) e⟩ :: st.q
            visited := upd st.visited (curr + d) false
            pushes := st.pushes ++ [curr + d] } := by
        simp only [expandDir]
        rw [if_pos hg]
        simp only [hgn, hgc, Option.getD_some]
      rw [hR]
      have hfresh : ∀ cd ∈ st.q, cd.pos ≠ curr + d := by
        intro cd hcd hcontra
        have := h0.q_parent cd hcd (hcontra ▸ hns)
        rw [hcontra, hnone] at this
        exact Bool.noConfusion this
      have hnotpops : curr + d ∉ st.pops := by
        intro hp
        rcases h0.pops_parent _ hp with h | h
        · exact hns h
        · rw [hnone] at h; exact Bool.noConfusion h
      have hnotpushes : curr + d ∉ st.pushes := by
        intro hp
        rcases h0.pushes_parent _ hp with h | h
        · exact hns h
        · rw [hnone] at h; exact Bool.noConfusion h
      refine ⟨?_, ?_, rfl, rfl, rfl, rfl, ?_, ?_⟩
      · exact {
          q_pass := by
            dsimp only
            intro cd hcd
            rcases List.mem_cons.1 hcd with rfl | hcd
            · exact hpass
            · exact h0.q_pass cd hcd
          q_g := by
            dsimp only
            intro cd hcd
            rcases List.mem_cons.1 hcd with rfl | hcd
            · simp [upd_same]
            · by_cases hx : cd.pos = curr + d
              · rw [hx, upd_same]; rfl
              · rw [upd_ne _ _ _ hx]; exact h0.q_g cd hcd
          q_parent := by
            dsimp only
            intro cd hcd hne
            rcases List.mem_cons.1 hcd with rfl | hcd
            · simp [upd_same]
            · by_cases hx : cd.pos = curr + d
              · rw [hx, upd_same]; rfl
              · rw [upd_ne _ _ _ hx]; exact h0.q_parent cd hcd hne
          q_nodup := by
            dsimp only
            refine List.nodup_cons.2 ⟨?_, h0.q_nodup⟩
            intro hmem
            obtain ⟨cd, hcd, hpos⟩ := List.mem_map.1 hmem
            exact hfresh cd hcd hpos
          g_start := by
            dsimp only
            rw [upd_ne _ _ _ (Ne.symm hns)]; exact h0.g_start
          parent_pass := by
            dsimp only
            intro p u hpu
            by_cases hx : p = curr + d
            · exact hx ▸ hpass
            · rw [upd_ne _ _ _ hx] at hpu; exact h0.parent_pass p u hpu
          parent_src := by
            dsimp only
            intro p u hpu
            by_cases hx : p = curr + d
            · rw [hx, upd_same] at hpu
              cases hpu; exact hcP
            · rw [upd_ne _ _ _ hx] at hpu; exact h0.parent_src p u hpu
          parent_adj := by
            dsimp only
            intro p u hpu
            by_cases hx : p = curr + d
            · rw [hx, upd_same] at hpu
              cases hpu; exact ⟨d, hd, hx⟩
            · rw [upd_ne _ _ _ hx] at hpu; exact h0.parent_adj p u hpu
          parent_g := by
            dsimp only
            intro p u hpu hne
            by_cases hx : p = curr + d
            · rw [hx, upd_same] at hpu
              cases hpu
              refine ⟨gc, ?_, ?_⟩
              · rw [upd_ne _ _ _ (Ne.symm hnc)]; exact hgc
              · rw [hx, upd_same]
            · rw [upd_ne _ _ _ hx] at hpu
              obtain ⟨gu, hgu, hgp⟩ := h0.parent_g p u hpu hne
              have hune : u ≠ curr + d := by
                intro hcontra
                rw [hcontra, hgn] at hgu
                exact Option.noConfusion hgu
              exact ⟨gu, by rw [upd_ne _ _ _ hune]; exact hgu,
                by rw [upd_ne _ _ _ hx]; exact hgp⟩
          g_parent := by
            dsimp only
            intro p hp hne
            by_cases hx : p = curr + d
            · rw [hx, upd_same]; rfl
            · rw [upd_ne _ _ _ hx] at hp
              rw [upd_ne _ _ _ hx]
              exact h0.g_parent p hp hne
          vis := by
            dsimp only
            intro p
            by_cases hx : p = curr + d
            · rw [hx, upd_same]
            · rw [upd_ne _ _ _ hx]; exact h0.vis p
          reach_loc := by
            dsimp only
            intro p hp
            by_cases hx : p = curr + d
            · exact Or.inr ⟨⟨curr + d, (gc + 1) + Pos.distance (curr + d) e⟩,
                List.mem_cons_self _ _, hx.symm⟩
            · rw [upd_ne _ _ _ hx] at hp
              rcases h0.reach_loc p hp with h | ⟨cd, hcd, hpos⟩
              · exact Or.inl h
              · exact Or.inr ⟨cd, List.mem_cons_of_mem _ hcd, hpos⟩
          end_pops := h0.end_pops
          pops_nodup := h0.pops_nodup
          pops_q := by
            dsimp only
            intro p hp cd hcd
            rcases List.mem_cons.1 hcd with rfl | hcd
            · intro hcontra
              apply hnotpops
              have heq : curr + d = p := hcontra
              rw [heq]; exact hp
            · exact h0.pops_q p hp cd hcd
          pops_parent := by
            dsimp only
            intro p hp
            rcases h0.pops_parent p hp with h | h
            · exact Or.inl h
            · right
              by_cases hx : p = curr + d
              · rw [hx, upd_same]; rfl
              · rw [upd_ne _ _ _ hx]; exact h
          pops_pass := h0.pops_pass
          pushes_nodup := by
            dsimp only
            simp only [List.nodup_append, List.nodup_cons, List.nodup_nil]
            exact ⟨h0.pushes_nodup, by simp, by simpa using hnotpushes⟩
          pushes_parent := by
            dsimp only
            intro p hp
            rcases List.mem_append.1 hp with hp | hp
            · rcases h0.pushes_parent p hp with h | h
              · exact Or.inl h
              · right
                by_cases hx : p = curr + d
                · rw [hx, upd_same]; rfl
                · rw [upd_ne _ _ _ hx]; exact h
            · right
              rcases List.mem_singleton.1 hp with rfl
              rw [upd_same]; rfl
          pushes_pass := by
            dsimp only
            intro p hp
            rcases List.mem_append.1 hp with hp | hp
            · exact h0.pushes_pass p hp
            · rcases List.mem_singleton.1 hp with rfl; exact hpass
          q_pushes := by
            dsimp only
            intro cd hcd
            rcases List.mem_cons.1 hcd with rfl | hcd
            · exact List.mem_append.2 (Or.inr (List.mem_singleton.2 rfl))
            · exact List.mem_append.2 (Or.inl (h0.q_pushes cd hcd))
          pops_pushes := by
            dsimp only
            intro p hp
            exact List.mem_append.2 (Or.inl (h0.pops_pushes p hp))
          ncalc := h0.ncalc
          fin_path := by
            dsimp only
            intro hcontra
            rw [hfin] at hcontra
            exact Bool.noConfusion hcontra
          unfin_path := fun _ => h0.unfin_path hfin }
      · dsimp only
        intro p v hp
        have hpne : p ≠ curr + d := by
          intro hcontra
          rw [hcontra, hgn] at hp
          exact Option.noConfusion hp
        rw [upd_ne _ _ _ hpne]; exact hp
      · dsimp only
        intro _
        simp [upd_same]
      · dsimp only
        intro p u hpu
        have hpne : p ≠ curr + d := by
          intro hcontra
          rw [hcontra, hnone] at hpu
          exact Option.noConfusion hpu
        rw [upd_ne _ _ _ hpne]; exact hpu
    · -- the cell already has a g-score: only `start` can be in this case,
      -- and the push guard (tg < 0) always fails there
      have hseq : curr + d = s := by
        by_contra hne
        have := h0.g_parent (curr + d) (by rw [hgn]; rfl) hne
        rw [hnone] at this
        exact Bool.noConfusion this
      have hg0 : g = 0 := by
        rw [hseq, h0.g_start] at hgn
        cases hgn; rfl
      have htg : ¬ (gc + 1 < g) := by omega
      have hR : expandDir w e curr st d =
          { st with parent := upd st.parent (curr + d) (some curr) } := by
        simp only [expandDir]
        rw [if_pos hg]
        simp only [hgn, hgc, Option.getD_some]
        rw [if_neg htg]
      rw [hR]
      refine ⟨?_, fun p v hp => hp, rfl, rfl, rfl, rfl, ?_, ?_⟩
      · exact {
          q_pass := h0.q_pass
          q_g := h0.q_g
          q_parent := by
            dsimp only
            intro cd hcd hne
            by_cases hx : cd.pos = curr + d
            · rw [hx, upd_same]; rfl
            · rw [upd_ne _ _ _ hx]; exact h0.q_parent cd hcd hne
          q_nodup := h0.q_nodup
          g_start := h0.g_start
          parent_pass := by
            dsimp only
            intro p u hpu
            by_cases hx : p = curr + d
            · rw [hx, hseq]; exact hs
            · rw [upd_ne _ _ _ hx] at hpu; exact h0.parent_pass p u hpu
          parent_src := by
            dsimp only
            intro p u hpu
            by_cases hx : p = curr + d
            · rw [hx, upd_same] at hpu
              cases hpu; exact hcP
            · rw [upd_ne _ _ _ hx] at hpu; exact h0.parent_src p u hpu
          parent_adj := by
            dsimp only
            intro p u hpu
            by_cases hx : p = curr + d
            · rw [hx, upd_same] at hpu
              cases hpu; exact ⟨d, hd, hx⟩
            · rw [upd_ne _ _ _ hx] at hpu; exact h0.parent_adj p u hpu
          parent_g := by
            dsimp only
            intro p u hpu hne
            by_cases hx : p = curr + d
            · exact absurd (hx.trans hseq) hne
            · rw [upd_ne _ _ _ hx] at hpu; exact h0.parent_g p u hpu hne
          g_parent := by
            dsimp only
            intro p hp hne
            by_cases hx : p = curr + d
            · rw [hx, upd_same]; rfl
            · rw [upd_ne _ _ _ hx]; exact h0.g_parent p hp hne
          vis := h0.vis
          reach_loc := h0.reach_loc
          end_pops := h0.end_pops
          pops_nodup := h0.pops_nodup
          pops_q := h0.pops_q
          pops_parent := by
            dsimp only
            intro p hp
            rcases h0.pops_parent p hp with h | h
            · exact Or.inl h
            · right
              by_cases hx : p = curr + d
              · rw [hx, upd_same]; rfl
              · rw [upd_ne _ _ _ hx]; exact h
          pops_pass := h0.pops_pass
          pushes_nodup := h0.pushes_nodup
          pushes_parent := by
            dsimp only
            intro p hp
            rcases h0.pushes_parent p hp with h | h
            · exact Or.inl h
            · right
              by_cases hx : p = curr + d
              · rw [hx, upd_same]; rfl
              · rw [upd_ne _ _ _ hx]; exact h
          pushes_pass := h0.pushes_pass
          q_pushes := h0.q_pushes
          pops_pushes := h0.pops_pushes
          ncalc := h0.ncalc
          fin_path := by
            dsimp only
            intro hcontra
            rw [hfin] at hcontra
            exact Bool.noConfusion hcontra
          unfin_path := fun _ => h0.unfin_path hfin }
      · dsimp only
        intro _
        rw [hgn]; rfl
      · dsimp only
        intro p u hpu
        have hpne : p ≠ curr + d := by
          intro hcontra
          rw [hcontra, hnone] at hpu
          exact Option.noConfusion hpu
        rw [upd_ne _ _ _ hpne]; exact hpu
  · -- guard false: no effect
    have hR : expandDir w e curr st d = st := by
      simp only [expandDir]
      rw [if_neg hg]
    rw [hR]
    refine ⟨h0, fun p v hp => hp, rfl, rfl, rfl, rfl, ?_, fun p u hpu => hpu⟩
    intro hpass
    have hsome : (st.parent (curr + d)).isNone = false := by
      by_contra hcontra
      rw [Bool.not_eq_false] at hcontra
      exact hg (by rw [hpass, hcontra]; rfl)
    obtain ⟨u, hu⟩ : ∃ u, st.parent (curr + d) = some u := by
      cases hpu : st.parent (curr + d) with
      | none => rw [hpu] at hsome; exact Bool.noConfusion hsome
      | some u => exact ⟨u, rfl⟩
    by_cases hx : curr + d = s
    · rw [hx, h0.g_start]; rfl
    · obtain ⟨gu, _, hgp⟩ := h0.parent_g (curr + d) u hu hx
      rw [hgp]; rfl

/-! ### Preservation of the invariant by the four-neighbour fold -/

lemma foldl_expand_inv0 {w : Pos → Bool} {s e : Pos} {curr : Pos} {gc : ℕ}
    (hs : is_passable w s = true) (hcP : is_passable w curr = true)
    (ds : List Pos) :
    ∀ st : AState, (∀ d ∈ ds, d ∈ dirs) → Inv0 w s e st →
    st.gscore curr = some gc → st.finished = false →
    Inv0 w s e (ds.foldl (expandDir w e curr) st) ∧
    (∀ p v, st.gscore p = some v →
      (ds.foldl (expandDir w e curr) st).gscore p = some v) ∧
    (ds.foldl (expandDir w e curr) st).pops = st.pops ∧
    (ds.foldl (expandDir w e curr) st).finished = st.finished ∧
    (ds.foldl (expandDir w e curr) st).path = st.path ∧
    (ds.foldl (expandDir w e curr) st).numcalc = st.numcalc ∧
    (∀ d ∈ ds, is_passable w (curr + d) = true →
      ((ds.foldl (expandDir w e curr) st).gscore (curr + d)).isSome = true) := by
  induction ds with
  | nil =>
    intro st _ h0 hgc hfin
    exact ⟨h0, fun p v hp => hp, rfl, rfl, rfl, rfl, by simp⟩
  | cons d ds ih =>
    intro st hds h0 hgc hfin
    have hd : d ∈ dirs := hds d (List.mem_cons_self _ _)
    obtain ⟨h0', stab, hpops, hfin', hpath, hnum, hest, -⟩ :=
      expandDir_inv0 hd h0 hs hcP hgc hfin
    have hgc' : (expandDir w e curr st d).gscore curr = some gc := stab curr gc hgc
    have hfin'' : (expandDir w e curr st d).finished = false := by rw [hfin', hfin]
    obtain ⟨H0, Stab, Hpops, Hfin, Hpath, Hnum, Hest⟩ :=
      ih (expandDir w e curr st d)
        (fun d' hd' => hds d' (List.mem_cons_of_mem _ hd')) h0' hgc' hfin''
    rw [List.foldl_cons]
    refine ⟨H0, ?_, ?_, ?_, ?_, ?_, ?_⟩
    · intro p v hp
      exact Stab p v (stab p v hp)
    · rw [Hpops, hpops]
    · rw [Hfin, hfin']
    · rw [Hpath, hpath]
    · rw [Hnum, hnum]
    · intro d' hd' hpassd
      rcases List.mem_cons.1 hd' with rfl | hd'
    -- the head direction is established immediately and preserved after
      · have h1 := hest hpassd
        obtain ⟨v, hv⟩ := Option.isSome_iff_exists.1 h1
        rw [Stab (curr + d') v hv]
        rfl
      · exact Hest d' hd' hpassd

/-! ### Preservation of the invariant by one loop iteration -/

lemma stepA_inv {w : Pos → Bool} {s e : Pos} (hs : is_passable w s = true)
    {st : AState} (hinv : Inv w s e st) (hact : activeA st = true) :
    Inv w s e (stepA w s e st) ∧
    (stepA w s e st).pops.length = st.pops.length + 1 := by
  have hact' := hact
  simp only [activeA, Bool.and_eq_true, Bool.not_eq_true'] at hact'
  have hfin : st.finished = false := hact'.1
  have hqne : st.q ≠ [] := by
    intro h
    rw [h] at hact'
    simp at hact'
  obtain ⟨⟨cd, rest⟩, hpop⟩ : ∃ x, popMax st.q = some x := by
    cases hp : popMax st.q with
    | none => exact absurd (popMax_eq_none.1 hp) hqne
    | some x => exact ⟨x, rfl⟩
  have hperm : st.q.Perm (cd :: rest) := popMax_perm hpop
  have hcdq : cd ∈ st.q := hperm.mem_iff.2 (List.mem_cons_self _ _)
  have hrest : ∀ x ∈ rest, x ∈ st.q :=
    fun x hx => hperm.mem_iff.2 (List.mem_cons_of_mem _ hx)
  have hposperm : (st.q.map CellData.pos).Perm (cd.pos :: rest.map CellData.pos) := by
    simpa using hperm.map CellData.pos
  have hposnodup : (cd.pos :: rest.map CellData.pos).Nodup :=
    hposperm.nodup_iff.1 hinv.q_nodup
  have hcurr_rest : cd.pos ∉ rest.map CellData.pos := (List.nodup_cons.1 hposnodup).1
  have hrest_nodup : (rest.map CellData.pos).Nodup := (List.nodup_cons.1 hposnodup).2
  have hcP : is_passable w cd.pos = true := hinv.q_pass cd hcdq
  obtain ⟨gc, hgc⟩ : ∃ gc, st.gscore cd.pos = some gc :=
    Option.isSome_iff_exists.1 (hinv.q_g cd hcdq)
  have hcpops : cd.pos ∉ st.pops := fun hp => (hinv.pops_q _ hp cd hcdq) rfl
  by_cases hce : cd.pos = e
  · -- the end cell is popped: reconstruct and finish
    have hR : stepA w s e st =
        { st with
          q := rest
          pops := st.pops ++ [cd.pos]
          numcalc := st.numcalc + 1
          path := (backtrack st.parent s (ROWS * COLS) e).reverse
          finished := true } := by
      simp only [stepA, hpop]
      rw [if_neg (by rw [hinv.vis cd.pos]; exact Bool.noConfusion), if_pos hce]
    rw [hR]
    constructor
    · refine { toInv0 := ?_, pops_exp := ?_ }
      · exact {
          q_pass := fun cd' hcd' => hinv.q_pass cd' (hrest cd' hcd')
          q_g := fun cd' hcd' => hinv.q_g cd' (hrest cd' hcd')
          q_parent := fun cd' hcd' => hinv.q_parent cd' (hrest cd' hcd')
          q_nodup := hrest_nodup
          g_start := hinv.g_start
          parent_pass := hinv.parent_pass
          parent_src := hinv.parent_src
          parent_adj := hinv.parent_adj
          parent_g := hinv.parent_g
          g_parent := hinv.g_parent
          vis := hinv.vis
          reach_loc := by
            dsimp only
            intro p hp
            rcases hinv.reach_loc p hp with h | ⟨cd', hcd', hpos⟩
            · exact Or.inl (List.mem_append.2 (Or.inl h))
            · have : cd' ∈ cd :: rest := hperm.mem_iff.1 hcd'
              rcases List.mem_cons.1 this with rfl | hmem
              · exact Or.inl (List.mem_append.2 (Or.inr (by
                  rw [hpos]; exact List.mem_singleton.2 rfl)))
              · exact Or.inr ⟨cd', hmem, hpos⟩
          end_pops := by
            dsimp only
            intro hcontra
            exact Bool.noConfusion hcontra
          pops_nodup := by
            dsimp only
            simp only [List.nodup_append, List.nodup_cons, List.nodup_nil]
            exact ⟨hinv.pops_nodup, by simp, by simpa using hcpops⟩
          pops_q := by
            dsimp only
            intro p hp cd' hcd'
            rcases List.mem_append.1 hp with hp | hp
            · exact hinv.pops_q p hp cd' (hrest cd' hcd')
            · rcases List.mem_singleton.1 hp with rfl
              intro hcontra
              exact hcurr_rest (hcontra ▸ List.mem_map_of_mem CellData.pos hcd')
          pops_parent := by
            dsimp only
            intro p hp
            rcases List.mem_append.1 hp with hp | hp
            · exact hinv.pops_parent p hp
            · rcases List.mem_singleton.1 hp with rfl
              by_cases hx : cd.pos = s
              · exact Or.inl hx
              · exact Or.inr (hinv.q_parent cd hcdq hx)
          pops_pass := by
            dsimp only
            intro p hp
            rcases List.mem_append.1 hp with hp | hp
            · exact hinv.pops_pass p hp
            · rcases List.mem_singleton.1 hp with rfl
              exact hcP
          pushes_nodup := hinv.pushes_nodup
          pushes_parent := hinv.pushes_parent
          pushes_pass := hinv.pushes_pass
          q_pushes := fun cd' hcd' => hinv.q_pushes cd' (hrest cd' hcd')
          pops_pushes := by
            dsimp only
            intro p hp
            rcases List.mem_append.1 hp with hp | hp
            · exact hinv.pops_pushes p hp
            · rcases List.mem_singleton.1 hp with rfl
              exact hinv.q_pushes cd hcdq
          ncalc := by
            dsimp only
            rw [hinv.ncalc, List.length_append, List.length_singleton]
          fin_path := by
            dsimp only
            intro _
            refine ⟨rfl, ?_⟩
            rw [← hce]
            exact hinv.q_g cd hcdq
          unfin_path := by
            dsimp only
            intro hcontra
            exact Bool.noConfusion hcontra }
      · dsimp only
        intro hcontra
        exact Bool.noConfusion hcontra
    · dsimp only
      rw [List.length_append, List.length_singleton]
  · -- an interior cell is popped: expand the four neighbours
    have hR : stepA w s e st =
        dirs.foldl (expandDir w e cd.pos)
          { st with
            q := rest
            pops := st.pops ++ [cd.pos]
            numcalc := st.numcalc + 1 } := by
      simp only [stepA, hpop]
      rw [if_neg (by rw [hinv.vis cd.pos]; exact Bool.noConfusion), if_neg hce]
    rw [hR]
    have h20 : Inv0 w s e
        { st with
          q := rest
          pops := st.pops ++ [cd.pos]
          numcalc := st.numcalc + 1 } := {
      q_pass := fun cd' hcd' => hinv.q_pass cd' (hrest cd' hcd')
      q_g := fun cd' hcd' => hinv.q_g cd' (hrest cd' hcd')
      q_parent := fun cd' hcd' => hinv.q_parent cd' (hrest cd' hcd')
      q_nodup := hrest_nodup
      g_start := hinv.g_start
      parent_pass := hinv.parent_pass
      parent_src := hinv.parent_src
      parent_adj := hinv.parent_adj
      parent_g := hinv.parent_g
      g_parent := hinv.g_parent
      vis := hinv.vis
      reach_loc := by
        dsimp only
        intro p hp
        rcases hinv.reach_loc p hp with h | ⟨cd', hcd', hpos⟩
        · exact Or.inl (List.mem_append.2 (Or.inl h))
        · have : cd' ∈ cd :: rest := hperm.mem_iff.1 hcd'
          rcases List.mem_cons.1 this with rfl | hmem
          · exact Or.inl (List.mem_append.2 (Or.inr (by
              rw [hpos]; exact List.mem_singleton.2 rfl)))
          · exact Or.inr ⟨cd', hmem, hpos⟩
      end_pops := by
        dsimp only
        intro _
        intro hcontra
        rcases List.mem_append.1 hcontra with hp | hp
        · exact hinv.end_pops hfin hp
        · rcases List.mem_singleton.1 hp with rfl
          exact hce rfl
      pops_nodup := by
        dsimp only
        simp only [List.nodup_append, List.nodup_cons, List.nodup_nil]
        exact ⟨hinv.pops_nodup, by simp, by simpa using hcpops⟩
      pops_q := by
        dsimp only
        intro p hp cd' hcd'
        rcases List.mem_append.1 hp with hp | hp
        · exact hinv.pops_q p hp cd' (hrest cd' hcd')
        · rcases List.mem_singleton.1 hp with rfl
          intro hcontra
          exact hcurr_rest (hcontra ▸ List.mem_map_of_mem CellData.pos hcd')
      pops_parent := by
        dsimp only
        intro p hp
        rcases List.mem_append.1 hp with hp | hp
        · exact hinv.pops_parent p hp
        · rcases List.mem_singleton.1 hp with rfl
          by_cases hx : cd.pos = s
          · exact Or.inl hx
          · exact Or.inr (hinv.q_parent cd hcdq hx)
      pops_pass := by
        dsimp only
        intro p hp
        rcases List.mem_append.1 hp with hp | hp
        · exact hinv.pops_pass p hp
        · rcases List.mem_singleton.1 hp with rfl
          exact hcP
      pushes_nodup := hinv.pushes_nodup
      pushes_parent := hinv.pushes_parent
      pushes_pass := hinv.pushes_pass
      q_pushes := fun cd' hcd' => hinv.q_pushes cd' (hrest cd' hcd')
      pops_pushes := by
        dsimp only
        intro p hp
        rcases List.mem_append.1 hp with hp | hp
        · exact hinv.pops_pushes p hp
        · rcases List.mem_singleton.1 hp with rfl
          exact hinv.q_pushes cd hcdq
      ncalc := by
        dsimp only
        rw [hinv.ncalc, List.length_append, List.length_singleton]
      fin_path := by
        dsimp only
        intro hcontra
        rw [hfin] at hcontra
        exact Bool.noConfusion hcontra
      unfin_path := fun _ => hinv.unfin_path hfin }
    obtain ⟨H0, Stab, Hpops, Hfin, Hpath, Hnum, Hest⟩ :=
      foldl_expand_inv0 hs hcP dirs _ (fun d hd => hd) h20 hgc hfin
    constructor
    · refine { toInv0 := H0, pops_exp := ?_ }
      intro _ p hp d hd hpassd
      rw [Hpops] at hp
      rcases List.mem_append.1 hp with hp | hp
      · obtain ⟨v, hv⟩ := Option.isSome_iff_exists.1
          (hinv.pops_exp hfin p hp d hd hpassd)
        rw [Stab (p + d) v hv]
        rfl
      · rcases List.mem_singleton.1 hp with rfl
        exact Hest d hd hpassd
    · rw [Hpops]
      dsimp only
      rw [List.length_append, List.length_singleton]

/-! ### The invariant holds initially and throughout the loop -/

lemma initA_inv {w : Pos → Bool} {s e : Pos} (hs : is_passable w s = true) :
    Inv w s e (initA s e) := by
  refine { toInv0 := ?_, pops_exp := ?_ }
  · exact {
      q_pass := by
        intro cd hcd
        rcases List.mem_singleton.1 hcd with rfl
        exact hs
      q_g := by
        intro cd hcd
        rcases List.mem_singleton.1 hcd with rfl
        simp [initA]
      q_parent := by
        intro cd hcd hne
        rcases List.mem_singleton.1 hcd with rfl
        exact absurd rfl hne
      q_nodup := by simp [initA]
      g_start := by simp [initA]
      parent_pass := by intro p u hpu; simp [initA] at hpu
      parent_src := by intro p u hpu; simp [initA] at hpu
      parent_adj := by intro p u hpu; simp [initA] at hpu
      parent_g := by intro p u hpu; simp [initA] at hpu
      g_parent := by
        intro p hp hne
        simp only [initA] at hp
        rw [if_neg hne] at hp
        exact Bool.noConfusion hp
      vis := by intro p; simp [initA]
      reach_loc := by
        intro p hp
        simp only [initA] at hp
        by_cases hx : p = s
        · exact Or.inr ⟨⟨s, Pos.distance s e⟩, by simp [initA], hx.symm⟩
        · rw [if_neg hx] at hp
          exact Bool.noConfusion hp
      end_pops := by intro _; simp [initA]
      pops_nodup := by simp [initA]
      pops_q := by intro p hp; simp [initA] at hp
      pops_parent := by intro p hp; simp [initA] at hp
      pops_pass := by intro p hp; simp [initA] at hp
      pushes_nodup := by simp [initA]
      pushes_parent := by
        intro p hp
        simp only [initA, List.mem_singleton] at hp
        exact Or.inl hp
      pushes_pass := by
        intro p hp
        simp only [initA, List.mem_singleton] at hp
        rw [hp]
        exact hs
      q_pushes := by
        intro cd hcd
        rcases List.mem_singleton.1 hcd with rfl
        simp [initA]
      pops_pushes := by intro p hp; simp [initA] at hp
      ncalc := by simp [initA]
      fin_path := by intro hcontra; simp [initA] at hcontra
      unfin_path := by intro _; simp [initA] }
  · intro _ p hp
    simp [initA] at hp

lemma loopA_inv {w : Pos → Bool} {s e : Pos} (hs : is_passable w s = true) :
    ∀ (f : ℕ) (st : AState), Inv w s e st → Inv w s e (loopA w s e f st) := by
  intro f
  induction f with
  | zero => intro st h; exact h
  | succ f ih =>
    intro st h
    rw [loopA_succ]
    by_cases hact : activeA st = true
    · rw [if_pos hact]
      exact ih _ (stepA_inv hs h hact).1
    · rw [if_neg hact]
      exact h

/-! ### Termination: the loop drains within `ROWS*COLS` iterations -/

lemma nodup_length_le_card {l : List Pos} {t : Finset Pos} (hn : l.Nodup)
    (hsub : ∀ x ∈ l, x ∈ t) : l.length ≤ t.card := by
  have h1 : l.toFinset.card = l.length := List.toFinset_card_of_nodup hn
  have h2 : l.toFinset ⊆ t := fun x hx => hsub x (List.mem_toFinset.1 hx)
  calc l.length = l.toFinset.card := h1.symm
    _ ≤ t.card := Finset.card_le_card h2

lemma inv_pops_le {w : Pos → Bool} {s e : Pos} {st : AState}
    (hinv : Inv w s e st) : st.pops.length ≤ ROWS * COLS := by
  have := nodup_length_le_card hinv.pops_nodup
    (fun x hx => is_passable_mem_grid (hinv.pops_pass x hx))
  rwa [gridFinset_card] at this

lemma inv_active_pops_lt {w : Pos → Bool} {s e : Pos} {st : AState}
    (hinv : Inv w s e st) (hact : activeA st = true) :
    st.pops.length < ROWS * COLS := by
  rcases Nat.lt_or_ge st.pops.length (ROWS * COLS) with h | h
  · exact h
  exfalso
  have heq : st.pops.length = ROWS * COLS := le_antisymm (inv_pops_le hinv) h
  -- every in-bounds cell has been popped, yet the frontier is nonempty
  have hfull : st.pops.toFinset = gridFinset := by
    apply Finset.eq_of_subset_of_card_le
    · intro x hx
      exact is_passable_mem_grid (hinv.pops_pass x (List.mem_toFinset.1 hx))
    · rw [gridFinset_card, List.toFinset_card_of_nodup hinv.pops_nodup]
      exact le_of_eq heq.symm
  simp only [activeA, Bool.and_eq_true, Bool.not_eq_true'] at hact
  have hqne : st.q ≠ [] := by
    intro hcontra
    rw [hcontra] at hact
    simp at hact
  obtain ⟨cd, hcd⟩ := List.exists_mem_of_ne_nil st.q hqne
  have hmem : cd.pos ∈ st.pops := by
    rw [← List.mem_toFinset, hfull]
    exact is_passable_mem_grid (hinv.q_pass cd hcd)
  exact hinv.pops_q cd.pos hmem cd hcd rfl

lemma loopA_notactive {w : Pos → Bool} {s e : Pos} (hs : is_passable w s = true) :
    ∀ (n : ℕ) (st : AState), Inv w s e st →
      ROWS * COLS ≤ st.pops.length + n → activeA (loopA w s e n st) = false := by
  intro n
  induction n with
  | zero =>
    intro st hinv hle
    cases hact : activeA st with
    | false => exact hact
    | true => exact absurd (inv_active_pops_lt hinv hact) (by omega)
  | succ n ih =>
    intro st hinv hle
    rw [loopA_succ]
    by_cases hact : activeA st = true
    · rw [if_pos hact]
      obtain ⟨hinv', hlen⟩ := stepA_inv hs hinv hact
      exact ih _ hinv' (by omega)
    · rw [if_neg hact]
      exact Bool.not_eq_true _ ▸ hact

lemma loopA_stable {w : Pos → Bool} {s e : Pos} (hs : is_passable w s = true) :
    ∀ (n : ℕ) (st : AState), Inv w s e st →
      ROWS * COLS ≤ st.pops.length + n →
      loopA w s e (n + 1) st = loopA w s e n st := by
  intro n
  induction n with
  | zero =>
    intro st hinv hle
    have hact : activeA st = false := by
      cases hact : activeA st with
      | false => rfl
      | true => exact absurd (inv_active_pops_lt hinv hact) (by omega)
    rw [loopA_inactive hact, loopA_inactive hact]
  | succ n ih =>
    intro st hinv hle
    by_cases hact : activeA st = true
    · rw [loopA_succ, if_pos hact]
      conv_rhs => rw [loopA_succ, if_pos hact]
      obtain ⟨hinv', hlen⟩ := stepA_inv hs hinv hact
      exact ih _ hinv' (by omega)
    · have hact' : activeA st = false := by
        cases h : activeA st with
        | false => rfl
        | true => exact absurd h hact
      rw [loopA_inactive hact', loopA_inactive hact']

lemma loopA_fuel_ge {w : Pos → Bool} {s e : Pos} (hs : is_passable w s = true)
    (f : ℕ) (hf : ROWS * COLS ≤ f) :
    loopA w s e f (initA s e) = calcState w s e := by
  rw [calcState]
  induction f, hf using Nat.le_induction with
  | base => rfl
  | succ f hf ih =>
    rw [← ih]
    exact loopA_stable hs f (initA s e) (initA_inv hs) (by simp [initA]; omega)

lemma calcState_inv {w : Pos → Bool} {s e : Pos} (hs : is_passable w s = true) :
    Inv w s e (calcState w s e) :=
  loopA_inv hs _ _ (initA_inv hs)

lemma calcState_notactive {w : Pos → Bool} {s e : Pos}
    (hs : is_passable w s = true) : activeA (calcState w s e) = false :=
  loopA_notactive hs _ _ (initA_inv hs) (by simp [initA])

/-! ### Path reconstruction follows parent links back to the start -/

lemma chainB_snoc {m : List Pos} {u x : Pos} (hc : chainB m = true)
    (hl : m.getLast? = some u) (ha : adjacent u x = true) :
    chainB (m ++ [x]) = true := by
  induction m generalizing u with
  | nil => exact Option.noConfusion hl
  | cons a m ih =>
    cases m with
    | nil =>
      have hau : a = u := by
        simp only [List.getLast?_singleton] at hl
        exact Option.some.inj hl
      subst hau
      simp [chainB, ha]
    | cons b m' =>
      rw [List.getLast?_cons_cons] at hl
      have hc' : chainB (b :: m') = true := by
        simp only [chainB, Bool.and_eq_true] at hc
        exact hc.2
      have hab : adjacent a b = true := by
        simp only [chainB, Bool.and_eq_true] at hc
        exact hc.1
      have hrec := ih hc' hl ha
      simp only [List.cons_append] at hrec ⊢
      simp only [chainB, Bool.and_eq_true]
      exact ⟨hab, by simpa using hrec⟩

lemma backtrack_spec {w : Pos → Bool} {s e : Pos} {st : AState}
    (h0 : Inv0 w s e st) :
    ∀ (g : ℕ) (p : Pos) (fuel : ℕ), st.gscore p = some g → g < fuel →
      (backtrack st.parent s fuel p).length = g ∧
      (∀ x ∈ backtrack st.parent s fuel p, x ≠ s) ∧
      (∀ x ∈ backtrack st.parent s fuel p, ∃ gx, st.gscore x = some gx ∧ gx ≤ g) ∧
      (∀ x ∈ backtrack st.parent s fuel p, is_passable w x = true) ∧
      (backtrack st.parent s fuel p).Nodup ∧
      chainB (s :: (backtrack st.parent s fuel p).reverse) = true ∧
      (s :: (backtrack st.parent s fuel p).reverse).getLast? = some p := by
  intro g
  induction g using Nat.strong_induction_on with
  | _ g IH =>
    intro p fuel hg hfuel
    cases fuel with
    | zero => omega
    | succ fuel =>
      rw [backtrack_succ]
      by_cases hps : p = s
      · rw [if_pos hps]
        have hg0 : g = 0 := by
          have h1 : some g = some 0 := by rw [← hg, hps, h0.g_start]
          exact Option.some.inj h1
        subst hps
        exact ⟨by simp [hg0], by simp, by simp, by simp, by simp, by rfl, by rfl⟩
      · rw [if_neg hps]
        have hpsome : (st.parent p).isSome = true :=
          h0.g_parent p (by rw [hg]; rfl) hps
        obtain ⟨u, hu⟩ := Option.isSome_iff_exists.1 hpsome
        simp only [hu]
        obtain ⟨gu, hgu, hgp⟩ := h0.parent_g p u hu hps
        have hgeq : g = gu + 1 := by
          rw [hg] at hgp
          exact Option.some.inj hgp
        obtain ⟨ihlen, ihs, ihg, ihpass, ihnodup, ihchain, ihlast⟩ :=
          IH gu (by omega) u fuel hgu (by omega)
        have hadj : adjacent u p = true := by
          obtain ⟨d, hd, hpd⟩ := h0.parent_adj p u hu
          rw [hpd]
          exact dir_adjacent hd
        refine ⟨?_, ?_, ?_, ?_, ?_, ?_, ?_⟩
        · simp [ihlen, hgeq]
        · intro x hx
          rcases List.mem_cons.1 hx with rfl | hx
          · exact hps
          · exact ihs x hx
        · intro x hx
          rcases List.mem_cons.1 hx with rfl | hx
          · exact ⟨g, hg, le_refl g⟩
          · obtain ⟨gx, hgx, hle⟩ := ihg x hx
            exact ⟨gx, hgx, by omega⟩
        · intro x hx
          rcases List.mem_cons.1 hx with rfl | hx
          · exact h0.parent_pass _ u hu
          · exact ihpass x hx
        · refine List.nodup_cons.2 ⟨?_, ihnodup⟩
          intro hpl
          obtain ⟨gx, hgx, hle⟩ := ihg p hpl
          rw [hg] at hgx
          rcases Option.some.inj hgx with rfl
          omega
        · rw [List.reverse_cons, ← List.cons_append]
          exact chainB_snoc ihchain ihlast hadj
        · rw [List.reverse_cons, ← List.cons_append, List.getLast?_concat]

lemma inv_g_lt {w : Pos → Bool} {s e : Pos} {st : AState}
    (h0 : Inv0 w s e st) (hs : is_passable w s = true) {p : Pos} {g : ℕ}
    (hg : st.gscore p = some g) : g < ROWS * COLS := by
  obtain ⟨hlen, hnes, -, hpass, hnodup, -, -⟩ :=
    backtrack_spec h0 g p (g + 1) hg (Nat.lt_succ_self g)
  have hle : (backtrack st.parent s (g + 1) p).length ≤ (gridFinset.erase s).card :=
    nodup_length_le_card hnodup (fun x hx =>
      Finset.mem_erase.2 ⟨hnes x hx, is_passable_mem_grid (hpass x hx)⟩)
  have hcard : (gridFinset.erase s).card = gridFinset.card - 1 :=
    Finset.card_erase_of_mem (is_passable_mem_grid hs)
  rw [hcard, gridFinset_card] at hle
  rw [hlen] at hle
  simp only [ROWS, COLS] at *
  omega

/-! ### Completeness: if a route exists the search finishes -/

lemma calcState_finished_of_route {w : Pos → Bool} {s e : Pos}
    (hs : is_passable w s = true)
    (l : List Pos) (hroute : isRoute w s e l = true) :
    (calcState w s e).finished = true := by
  have hinv : Inv w s e (calcState w s e) := calcState_inv hs
  have hnact : activeA (calcState w s e) = false := calcState_notactive hs
  by_contra hfin
  have hfin' : (calcState w s e).finished = false := by
    cases h : (calcState w s e).finished with
    | false => rfl
    | true => exact absurd h hfin
  have hq : (calcState w s e).q = [] := by
    simp only [activeA, hfin', Bool.not_false, Bool.true_and] at hnact
    cases hql : (calcState w s e).q with
    | nil => rfl
    | cons a t =>
      rw [hql] at hnact
      simp at hnact
  simp only [isRoute, Bool.and_eq_true, decide_eq_true_eq, List.all_eq_true] at hroute
  obtain ⟨⟨hchain, hall⟩, hlast⟩ := hroute
  -- walking along the route, every cell acquires a g-score
  have hwalk : ∀ (m : List Pos) (x : Pos), chainB (x :: m) = true →
      (∀ y ∈ x :: m, is_passable w y = true) →
      ((calcState w s e).gscore x).isSome = true →
      ∀ y ∈ x :: m, ((calcState w s e).gscore y).isSome = true := by
    intro m
    induction m with
    | nil =>
      intro x _ _ hx y hy
      rcases List.mem_singleton.1 hy with rfl
      exact hx
    | cons b m' ih =>
      intro x hchain2 hpass2 hx y hy
      have hxpops : x ∈ (calcState w s e).pops := by
        rcases hinv.reach_loc x hx with h | ⟨cd, hcd, -⟩
        · exact h
        · rw [hq] at hcd
          exact absurd hcd (List.not_mem_nil cd)
      have hadj : adjacent x b = true := by
        simp only [chainB, Bool.and_eq_true] at hchain2
        exact hchain2.1
      obtain ⟨d, hd, hbd⟩ := adjacent_dir hadj
      have hbP : is_passable w b = true := hpass2 b (by simp)
      have hb : ((calcState w s e).gscore b).isSome = true := by
        have := hinv.pops_exp hfin' x hxpops d hd (by rw [← hbd]; exact hbP)
        rw [← hbd] at this
        exact this
      rcases List.mem_cons.1 hy with rfl | hy'
      · exact hx
      · refine ih b ?_ ?_ hb y hy'
        · simp only [chainB, Bool.and_eq_true] at hchain2
          exact hchain2.2
        · intro z hz
          exact hpass2 z (List.mem_cons_of_mem _ hz)
  have hsreach : ((calcState w s e).gscore s).isSome = true := by
    rw [hinv.g_start]; rfl
  have hereach : ((calcState w s e).gscore e).isSome = true := by
    have hemem : e ∈ s :: l := by
      obtain ⟨ys, hys⟩ := List.getLast?_eq_some_iff.1 hlast
      rw [hys]
      exact List.mem_append.2 (Or.inr (List.mem_singleton.2 rfl))
    exact hwalk l s hchain (fun y hy => hall y hy) hsreach e hemem
  have hepops : e ∈ (calcState w s e).pops := by
    rcases hinv.reach_loc e hereach with h | ⟨cd, hcd, -⟩
    · exact h
    · rw [hq] at hcd
      exact absurd hcd (List.not_mem_nil cd)
  exact hinv.end_pops hfin' hepops

/-! ### The reconstructed path is a genuine route -/

lemma calcState_path_route {w : Pos → Bool} {s e : Pos}
    (hs : is_passable w s = true) (hne : s ≠ e)
    (hfin : (calcState w s e).finished = true) :
    isRoute w s e (calcState w s e).path = true ∧
    (calcState w s e).path =
      (backtrack (calcState w s e).parent s (ROWS * COLS) e).reverse ∧
    s ∉ (calcState w s e).path ∧
    (calcState w s e).path ≠ [] ∧
    (calcState w s e).path.getLast? = some e := by
  have hinv : Inv w s e (calcState w s e) := calcState_inv hs
  obtain ⟨hpath, hesome⟩ := hinv.fin_path hfin
  obtain ⟨ge, hge⟩ := Option.isSome_iff_exists.1 hesome
  have hlt : ge < ROWS * COLS := inv_g_lt hinv.toInv0 hs hge
  obtain ⟨hlen, hnes, hgx, hpass, hnodup, hchain, hlast⟩ :=
    backtrack_spec hinv.toInv0 ge e (ROWS * COLS) hge hlt
  have hgepos : 0 < ge := by
    rcases Nat.eq_zero_or_pos ge with h0 | h0
    · exfalso
      subst h0
      have hpar : ((calcState w s e).parent e).isSome = true :=
        hinv.g_parent e (by rw [hge]; rfl) (Ne.symm hne)
      obtain ⟨u, hu⟩ := Option.isSome_iff_exists.1 hpar
      obtain ⟨gu, hgu, hgp⟩ := hinv.parent_g e u hu (Ne.symm hne)
      rw [hge] at hgp
      have := Option.some.inj hgp
      omega
    · exact h0
  have hbne : backtrack (calcState w s e).parent s (ROWS * COLS) e ≠ [] := by
    intro hcontra
    rw [hcontra] at hlen
    simp at hlen
    omega
  refine ⟨?_, hpath, ?_, ?_, ?_⟩
  · rw [hpath]
    simp only [isRoute, Bool.and_eq_true, decide_eq_true_eq, List.all_eq_true]
    refine ⟨⟨hchain, ?_⟩, ?_⟩
    · intro y hy
      rcases List.mem_cons.1 hy with rfl | hy
      · exact hs
      · exact hpass y (List.mem_reverse.1 hy)
    · rw [← hlast]
  · rw [hpath]
    intro hcontra
    exact hnes s (List.mem_reverse.1 hcontra) rfl
  · rw [hpath]
    intro hcontra
    rw [List.reverse_eq_nil_iff] at hcontra
    exact hbne hcontra
  · rw [hpath]
    have h1 := hlast
    rw [List.getLast?_cons] at h1
    have h2 := Option.some.inj h1
    cases hgl : (backtrack (calcState w s e).parent s (ROWS * COLS) e).reverse.getLast? with
    | none =>
      rw [List.getLast?_eq_none_iff, List.reverse_eq_nil_iff] at hgl
      exact absurd hgl hbne
    | some x =>
      rw [hgl] at h2
      simp only [Option.getD_some] at h2
      rw [h2]

/-! ### Claims C1, C7, C9, C10 (the search loop itself) -/

/-- C1 counterexample: on the 20×20 grid with walls `wallsC1`,
start (1,4) and end (0,0) are passable and joined by the 5-step route
`routeC1`, yet the engine returns a path of length 7 — so the returned
length does not equal the true shortest 4-connected distance (which is
at most 5). The first-reach-only relaxation latches a suboptimal
parent. -/
theorem c1_counterexample :
    isRoute wallsC1 ⟨1, 4⟩ ⟨0, 0⟩ routeC1 = true ∧
    routeC1.length = 5 ∧
    (calculate wallsC1 (some ⟨1, 4⟩) (some ⟨0, 0⟩)).1.length = 7 :=
  ⟨by decide, by decide, by decide⟩

/-- C1 amended: for every wall configuration and distinct passable
start and end joined by some 4-connected route through passable cells,
the engine returns a path that is itself a genuine 4-connected route
through passable cells from start (exclusive) to end (inclusive) — but
its length may exceed the true shortest distance. -/
theorem c1_amended_route (w : Pos → Bool) (s e : Pos)
    (hs : is_passable w s = true) (he : is_passable w e = true)
    (hne : s ≠ e) (hroute : ∃ l, isRoute w s e l = true) :
    isRoute w s e (calculate w (some s) (some e)).1 = true := by
  obtain ⟨l, hl⟩ := hroute
  have hfin : (calcState w s e).finished = true :=
    calcState_finished_of_route hs l hl
  obtain ⟨hisroute, -, -, -, -⟩ := calcState_path_route hs hne hfin
  simp only [calculate, hs, he, Bool.and_self, if_true]
  exact hisroute

/-- C1 amended witness: a one-step instance. -/
theorem c1_amended_witness :
    isRoute noWalls ⟨0, 0⟩ ⟨0, 1⟩ (calculate noWalls (some ⟨0, 0⟩) (some ⟨0, 1⟩)).1 = true :=
  c1_amended_route noWalls ⟨0, 0⟩ ⟨0, 1⟩ (by decide) (by decide) (by decide)
    ⟨[⟨0, 1⟩], by decide⟩

/-- C7 counterexample: with start = end = (0,0) on the clear grid the
search reaches `end` (it is popped and the loop breaks), yet the
returned path is empty, so it does not include the end cell as its
last element. -/
theorem c7_counterexample :
    (calcState noWalls ⟨0, 0⟩ ⟨0, 0⟩).finished = true ∧
    (calcState noWalls ⟨0, 0⟩ ⟨0, 0⟩).path = [] ∧
    (calcState noWalls ⟨0, 0⟩ ⟨0, 0⟩).path.getLast? ≠ some ⟨0, 0⟩ :=
  ⟨by decide, by decide, by decide⟩

/-- C7 amended: whenever the search reaches `end` (the loop breaks with
the finished flag) and start ≠ end, the returned path is exactly the
reversal of the backward parent-link walk from `end`; it is nonempty,
lists the route in start-to-end order (consecutive cells 4-adjacent
starting next to `start`), excludes `start`, and ends with `end` as its
last element (when start = end the path is empty). -/
theorem c7_path_order (w : Pos → Bool) (s e : Pos)
    (hs : is_passable w s = true) (hne : s ≠ e)
    (hfin : (calcState w s e).finished = true) :
    (calcState w s e).path =
      (backtrack (calcState w s e).parent s (ROWS * COLS) e).reverse ∧
    (calcState w s e).path ≠ [] ∧
    (calcState w s e).path.getLast? = some e ∧
    s ∉ (calcState w s e).path ∧
    chainB (s :: (calcState w s e).path) = true := by
  obtain ⟨hisroute, hpath, hnotmem, hnonnil, hlast⟩ :=
    calcState_path_route hs hne hfin
  refine ⟨hpath, hnonnil, hlast, hnotmem, ?_⟩
  simp only [isRoute, Bool.and_eq_true] at hisroute
  exact hisroute.1.1

/-- C7 witness: the concrete search from (0,0) to (0,1) on the clear
grid reaches end, and its path obeys the stated shape. -/
theorem c7_witness :
    (calcState noWalls ⟨0, 0⟩ ⟨0, 1⟩).path =
      (backtrack (calcState noWalls ⟨0, 0⟩ ⟨0, 1⟩).parent ⟨0, 0⟩ (ROWS * COLS) ⟨0, 1⟩).reverse ∧
    (calcState noWalls ⟨0, 0⟩ ⟨0, 1⟩).path ≠ [] ∧
    (calcState noWalls ⟨0, 0⟩ ⟨0, 1⟩).path.getLast? = some ⟨0, 1⟩ ∧
    ⟨0, 0⟩ ∉ (calcState noWalls ⟨0, 0⟩ ⟨0, 1⟩).path ∧
    chainB (⟨0, 0⟩ :: (calcState noWalls ⟨0, 0⟩ ⟨0, 1⟩).path) = true :=
  c7_path_order noWalls ⟨0, 0⟩ ⟨0, 1⟩ (by decide) (by decide) (by decide)

/-- C9: within one search invocation the effort counter equals the
number of frontier pops, and the popped cells are pairwise distinct —
every pop is counted exactly once and no cell contributes more than 1
to `search_effort`. -/
theorem c9_effort_once (w : Pos → Bool) (s e : Pos)
    (hs : is_passable w s = true) :
    (calcState w s e).numcalc = (calcState w s e).pops.length ∧
    (calcState w s e).pops.Nodup := by
  have hinv := calcState_inv (e := e) hs
  exact ⟨hinv.ncalc, hinv.pops_nodup⟩

/-- C9 witness: the concrete search from (0,0) to (0,1). -/
theorem c9_witness :
    (calcState noWalls ⟨0, 0⟩ ⟨0, 1⟩).numcalc =
      (calcState noWalls ⟨0, 0⟩ ⟨0, 1⟩).pops.length ∧
    (calcState noWalls ⟨0, 0⟩ ⟨0, 1⟩).pops.Nodup :=
  c9_effort_once noWalls ⟨0, 0⟩ ⟨0, 1⟩ (by decide)

/-- C10: the search always terminates within `ROWS*COLS` pops: running
the loop with fuel `ROWS*COLS` is the same as with any larger fuel, the
resulting state is inactive (frontier drained or end reached), each
cell is pushed at most once per invocation, the frontier never holds
more than `ROWS*COLS` entries, and at most `ROWS*COLS` pops occur. -/
theorem c10_termination (w : Pos → Bool) (s e : Pos)
    (hs : is_passable w s = true) :
    (∀ f, ROWS * COLS ≤ f → loopA w s e f (initA s e) = calcState w s e) ∧
    activeA (calcState w s e) = false ∧
    (calcState w s e).pushes.Nodup ∧
    (∀ f, (loopA w s e f (initA s e)).q.length ≤ ROWS * COLS) ∧
    (calcState w s e).pops.length ≤ ROWS * COLS := by
  refine ⟨fun f hf => loopA_fuel_ge hs f hf, calcState_notactive hs,
    (calcState_inv hs).pushes_nodup, ?_, inv_pops_le (calcState_inv hs)⟩
  intro f
  have hinv := loopA_inv (e := e) hs f (initA s e) (initA_inv (e := e) hs)
  set st := loopA w s e f (initA s e)
  have h1 : st.q.length = (st.q.map CellData.pos).length :=
    (List.length_map _ _).symm
  have h2 : (st.q.map CellData.pos).length ≤ st.pushes.toFinset.card := by
    apply nodup_length_le_card hinv.q_nodup
    intro x hx
    obtain ⟨cd, hcd, rfl⟩ := List.mem_map.1 hx
    exact List.mem_toFinset.2 (hinv.q_pushes cd hcd)
  have h3 : st.pushes.toFinset.card = st.pushes.length :=
    List.toFinset_card_of_nodup hinv.pushes_nodup
  have h4 : st.pushes.length ≤ ROWS * COLS := by
    have := nodup_length_le_card hinv.pushes_nodup
      (fun x hx => is_passable_mem_grid (hinv.pushes_pass x hx))
    rwa [gridFinset_card] at this
  omega

/-- C10 witness: the concrete search from (0,0) to (0,1), with fuel
500 in place of the canonical 400. -/
theorem c10_witness :
    loopA noWalls ⟨0, 0⟩ ⟨0, 1⟩ 500 (initA ⟨0, 0⟩ ⟨0, 1⟩) =
      calcState noWalls ⟨0, 0⟩ ⟨0, 1⟩ ∧
    activeA (calcState noWalls ⟨0, 0⟩ ⟨0, 1⟩) = false ∧
    (calcState noWalls ⟨0, 0⟩ ⟨0, 1⟩).pushes.Nodup := by
  have h := c10_termination noWalls ⟨0, 0⟩ ⟨0, 1⟩ (by decide)
  exact ⟨h.1 500 (by norm_num [ROWS, COLS]), h.2.1, h.2.2.1⟩

/-! ### Claim C8 (bounds invariant of the grid model) -/

lemma is_passable_inBounds {w : Pos → Bool} {p : Pos}
    (h : is_passable w p = true) : inBoundsB p = true := by
  have h' : (inBoundsB p && !(w p)) = true := h
  simp only [Bool.and_eq_true] at h'
  exact h'.1

lemma calculate_path_bounds (w : Pos → Bool) (os oe : Option Pos) :
    ∀ p ∈ (calculate w os oe).1, inBoundsB p = true := by
  cases os with
  | none => simp [calculate]
  | some s =>
    cases oe with
    | none => simp [calculate]
    | some e =>
      by_cases hguard : (is_passable w s && is_passable w e) = true
      · have hs : is_passable w s = true := by
          have h' := hguard
          simp only [Bool.and_eq_true] at h'
          exact h'.1
        simp only [calculate, hguard, if_true]
        cases hfin : (calcState w s e).finished with
        | false =>
          rw [(calcState_inv hs).unfin_path hfin]
          simp
        | true =>
          obtain ⟨hpath, hesome⟩ := (calcState_inv hs).fin_path hfin
          obtain ⟨ge, hge⟩ := Option.isSome_iff_exists.1 hesome
          have hlt : ge < ROWS * COLS := inv_g_lt (calcState_inv hs).toInv0 hs hge
          obtain ⟨-, -, -, hpass, -, -, -⟩ :=
            backtrack_spec (calcState_inv hs).toInv0 ge e (ROWS * COLS) hge hlt
          intro p hp
          rw [hpath] at hp
          exact is_passable_inBounds (hpass p (List.mem_reverse.1 hp))
      · simp only [calculate, hguard, if_false]
        simp

lemma ctxInvB_intro {c : Context}
    (h1 : ∀ p, c.start = some p → inBoundsB p = true)
    (h2 : ∀ p, c.endp = some p → inBoundsB p = true)
    (h3 : ∀ p ∈ c.path, inBoundsB p = true) : ctxInvB c = true := by
  simp only [ctxInvB, Bool.and_eq_true]
  refine ⟨⟨?_, ?_⟩, ?_⟩
  · cases hc : c.start with
    | none => rfl
    | some p => simpa using h1 p hc
  · cases hc : c.endp with
    | none => rfl
    | some p => simpa using h2 p hc
  · simpa [List.all_eq_true] using h3

lemma ctxInvB_elim {c : Context} (h : ctxInvB c = true) :
    (∀ p, c.start = some p → inBoundsB p = true) ∧
    (∀ p, c.endp = some p → inBoundsB p = true) ∧
    (∀ p ∈ c.path, inBoundsB p = true) := by
  simp only [ctxInvB, Bool.and_eq_true] at h
  obtain ⟨⟨h1, h2⟩, h3⟩ := h
  refine ⟨?_, ?_, ?_⟩
  · intro p hp
    rw [hp] at h1
    simpa using h1
  · intro p hp
    rw [hp] at h2
    simpa using h2
  · intro p hp
    rw [List.all_eq_true] at h3
    exact h3 p hp

/-- What a tick can do to each grid-model field: the wall table is
unchanged or updated at the pointer cell; `start` and `end` are
unchanged or set to the pointer mapping; the path is unchanged or
freshly recomputed from the tick's resulting walls/start/end. -/
lemma tick_fields (ctx : Context) (inp : Input) :
    ((tick ctx inp).is_wall = ctx.is_wall ∨
      ∃ q v, inp.mouse_grid = some q ∧
        (tick ctx inp).is_wall = upd ctx.is_wall q v) ∧
    ((tick ctx inp).start = ctx.start ∨ (tick ctx inp).start = inp.mouse_grid) ∧
    ((tick ctx inp).endp = ctx.endp ∨ (tick ctx inp).endp = inp.mouse_grid) ∧
    ((tick ctx inp).path = ctx.path ∨
      (tick ctx inp).path =
        (calculate (tick ctx inp).is_wall (tick ctx inp).start
          (tick ctx inp).endp).1) := by
  rcases hcs : ctx.control_state with _ | _ | v
  · cases hm : inp.middle_pressed
    · rcases hmg : inp.mouse_grid with _ | q <;> cases hlp : inp.left_pressed <;>
        · simp only [tick, tickFull, hcs, hm, hmg, hlp]
          split_ifs <;>
            simp [runCalculate, setControlState]
    · simp [tick, tickFull, hcs, hm, setControlState]
  · cases hmr : inp.middle_released <;>
      simp [tick, tickFull, hcs, hmr, setControlState]
  · cases hlr : inp.left_released
    · rcases hmg : inp.mouse_grid with _ | q
      · simp [tick, tickFull, hcs, hlr, hmg]
      · by_cases hwv : ctx.is_wall q ≠ v
        · refine ⟨Or.inr ⟨q, v, rfl, ?_⟩, Or.inl ?_, Or.inl ?_, Or.inr ?_⟩ <;>
            simp [tick, tickFull, hcs, hlr, hmg, hwv, runCalculate]
        · simp [tick, tickFull, hcs, hlr, hmg, hwv]
    · simp [tick, tickFull, hcs, hlr, setControlState]

/-- C8: the bounds invariant. First conjunct: the pointer-to-cell
mapping only ever produces in-bounds cells. Second conjunct: a tick
whose pointer input is absent or in-bounds preserves the invariant that
every cell stored in `start`, `end` and `path` is in-bounds, and never
mutates the wall table at an out-of-bounds cell. -/
theorem c8_bounds_invariant :
    (∀ (x y : ℚ) (p : Pos), mouseGridOfWorld x y = some p → inBoundsB p = true) ∧
    (∀ (ctx : Context) (inp : Input),
      (inp.mouse_grid = none ∨ ∃ p, inp.mouse_grid = some p ∧ inBoundsB p = true) →
      ctxInvB ctx = true →
      ctxInvB (tick ctx inp) = true ∧
      ∀ p, inBoundsB p = false → (tick ctx inp).is_wall p = ctx.is_wall p) := by
  constructor
  · intro x y p h
    simp only [mouseGridOfWorld] at h
    split at h
    · rename_i hcond
      obtain ⟨h1, h2, h3, h4⟩ := hcond
      rcases Option.some.inj h with rfl
      simp only [inBoundsB, Bool.and_eq_true, decide_eq_true_eq]
      have hy1 : (0 : ℤ) ≤ ⌊y⌋ := Int.floor_nonneg.2 h3
      have hx1 : (0 : ℤ) ≤ ⌊x⌋ := Int.floor_nonneg.2 h1
      have hy2 : ⌊y⌋ < (ROWS : ℤ) := Int.floor_lt.2 (by exact_mod_cast h4)
      have hx2 : ⌊x⌋ < (COLS : ℤ) := Int.floor_lt.2 (by exact_mod_cast h2)
      exact ⟨⟨⟨hy1, hy2⟩, hx1⟩, hx2⟩
    · exact Option.noConfusion h
  · intro ctx inp hmouse hctx
    obtain ⟨hst, hen, hpa⟩ := ctxInvB_elim hctx
    have hmouse' : ∀ p, inp.mouse_grid = some p → inBoundsB p = true := by
      intro p hp
      rcases hmouse with h | ⟨q, hq, hqb⟩
      · rw [h] at hp
        exact Option.noConfusion hp
      · rw [hq] at hp
        rcases Option.some.inj hp with rfl
        exact hqb
    obtain ⟨hwall, hstart, hendp, hpath⟩ := tick_fields ctx inp
    have hstart' : ∀ p, (tick ctx inp).start = some p → inBoundsB p = true := by
      rcases hstart with h | h
      · intro p hp
        exact hst p (h ▸ hp)
      · intro p hp
        exact hmouse' p (h ▸ hp)
    have hendp' : ∀ p, (tick ctx inp).endp = some p → inBoundsB p = true := by
      rcases hendp with h | h
      · intro p hp
        exact hen p (h ▸ hp)
      · intro p hp
        exact hmouse' p (h ▸ hp)
    constructor
    · apply ctxInvB_intro hstart' hendp'
      rcases hpath with h | h
      · intro p hp
        exact hpa p (h ▸ hp)
      · intro p hp
        rw [h] at hp
        exact calculate_path_bounds _ _ _ p hp
    · intro p hp
      rcases hwall with h | ⟨q, v', hq, hupd⟩
      · rw [h]
      · rw [hupd]
        apply upd_ne
        intro hcontra
        rw [hcontra, hmouse' q hq] at hp
        exact Bool.noConfusion hp

/-- C8 witness: the first conjunct at world position (0,1) and the
second at the concrete context of the key-held scenario. -/
theorem c8_witness :
    inBoundsB (⟨1, 0⟩ : Pos) = true ∧
    ctxInvB (tick ctxC4 inpC4) = true :=
  ⟨c8_bounds_invariant.1 (0 : ℚ) (1 : ℚ) ⟨1, 0⟩
      (by norm_num [mouseGridOfWorld, ROWS, COLS]),
   (c8_bounds_invariant.2 ctxC4 inpC4
     (Or.inr ⟨⟨0, 0⟩, rfl, by decide⟩) (by decide)).1⟩
end Pathfind
